import Mathlib

/-!
Verification of the `zettelfiles` core (archived_code/python/zettelfiles)
against its natural-language specification.

Python strings are modelled as `List Char` (abbreviated `Str`); Python's
`str.isdigit` on single characters is modelled as `Char.isDigit`
(ASCII digits; the repository only ever uses ASCII IDs and filenames).
Each definition below is a shallow embedding of the correspondingly named
Python function; deviations, if any, are stated in the doc comment.

The file is organised as: all definitions first, then all theorems.
-/

/-- Python strings, modelled as lists of characters. -/
abbrev Str := List Char

/-- The fixed special-character set "!@#$%^&*_" of `utils.is_valid_node_id`. -/
def specialChars : Str := ['!', '@', '#', '$', '%', '^', '&', '*', '_']

/--
The `while pos < len(node_id)` loop of `utils.is_valid_node_id`, acting on
the suffix of the ID that starts at `pos` (the first two digit characters
have already been consumed).  Each iteration consumes the non-digit hop
character; then, if at least two characters remain, it rejects exactly when
the next two characters are *both* non-digits (`if not node_id[pos].isdigit()
and not node_id[pos+1].isdigit(): return False`) and otherwise skips both;
if exactly one character remains it must be in the special set; the final
`pos == len-1` special-character check of the Python loop is subsumed by the
next iteration of this recursion (a single remaining non-digit character is
always accepted).
-/
def validRestLoop : Str → Bool
  | [] => true
  | c :: l =>
    if c.isDigit then false
    else
      match l with
      | [] => true
      | [s] => specialChars.contains s
      | d1 :: d2 :: rest =>
        if !d1.isDigit && !d2.isDigit then false
        else validRestLoop rest

/-- `utils.is_valid_node_id`: length < 2 rejected; length 2 must be two
digits; otherwise the first two characters must be digits and the remainder
is checked by the scanning loop. -/
def is_valid_node_id (node_id : Str) : Bool :=
  if node_id.length < 2 then false
  else if node_id.length == 2 then node_id.all Char.isDigit
  else
    match node_id with
    | c1 :: c2 :: rest => c1.isDigit && c2.isDigit && validRestLoop rest
    | _ => false

/--
The spec's ID grammar (§4.1), applied to the characters after the two root
digits.  A hop is one non-digit character followed by exactly two digits;
the final hop may omit its digits or replace them with a single trailing
special character.  (The spec's sentence "optionally followed by exactly two
digits" is read as applying to the final hop only: the spec's own Scenario B
declares `03e@07` invalid, which forces every non-final hop to carry its two
digits.)
-/
inductive GoodRest : Str → Prop
  | nil : GoodRest []
  | bare (c : Char) : ¬c.isDigit → GoodRest [c]
  | barespec (c s : Char) : ¬c.isDigit → s ∈ specialChars → GoodRest [c, s]
  | hop (c d1 d2 : Char) (l : Str) :
      ¬c.isDigit → d1.isDigit → d2.isDigit → GoodRest l →
      GoodRest (c :: d1 :: d2 :: l)

/-- Boolean decider for `GoodRest`. -/
def goodRestB : Str → Bool
  | [] => true
  | [c] => !c.isDigit
  | [c, s] => !c.isDigit && specialChars.contains s
  | c :: d1 :: d2 :: l => !c.isDigit && d1.isDigit && d2.isDigit && goodRestB l

/-- A string conforms to the spec's ID grammar: at least two characters, the
first two are digits, and the remainder is a well-formed hop sequence. -/
def grammarValid (s : Str) : Bool :=
  match s with
  | c1 :: c2 :: rest => c1.isDigit && c2.isDigit && goodRestB rest
  | _ => false

/-- `utils.get_parent_id`: length ≤ 2 has no parent; length 3 keeps the
first two characters; otherwise drop the final character if it is a
non-digit, else drop the final two characters. -/
def get_parent_id (node_id : Str) : Str :=
  if node_id.length ≤ 2 then []
  else if node_id.length == 3 then node_id.take 2
  else if !((node_id.getLast?.getD '0').isDigit) then node_id.dropLast
  else node_id.take (node_id.length - 2)

/-- `utils.get_all_parent_ids`: repeatedly apply `get_parent_id` until the
parent is empty, collecting the parents from nearest to root. -/
def get_all_parent_ids (node_id : Str) : List Str :=
  let p := get_parent_id node_id
  if h : p = [] then []
  else p :: get_all_parent_ids p
termination_by node_id.length
decreasing_by
  have h1 : ¬ node_id.length ≤ 2 := by
    intro hle
    apply h
    show get_parent_id node_id = []
    simp [get_parent_id, hle]
  show (get_parent_id node_id).length < node_id.length
  unfold get_parent_id
  rw [if_neg h1]
  split
  · simp only [List.length_take]
    omega
  · split
    · simp only [List.length_dropLast]
      omega
    · simp only [List.length_take]
      omega

/-- Whether the last character of a string is a digit (`node_id[-1].isdigit()`
on a non-empty string; `false` on the empty string). -/
def lastIsDigitB (l : Str) : Bool :=
  match l.getLast? with
  | some c => c.isDigit
  | none => false

/-- One parent-derivation step on the part of an ID after the two root
digits: drop the final two characters if the last is a digit, else drop the
final character.  `get_parent_id (d1 :: d2 :: rest) = d1 :: d2 ::
restParent rest` for non-empty `rest` (proved below). -/
def restParent (l : Str) : Str :=
  if lastIsDigitB l then l.dropLast.dropLast else l.dropLast

/-- Number of parent-derivation steps needed to reduce an ID suffix to the
root: each non-digit character is one step and each digit pair is one step. -/
def weight (l : Str) : Nat :=
  (l.filter (fun c => !c.isDigit)).length + (l.filter (fun c => c.isDigit)).length / 2

/-- Whether the last two characters of a string are both non-digits (true
exactly for grammar-valid IDs that end in a trailing special character
immediately after a bare hop character). -/
def endsTwoNonDigit (l : Str) : Bool :=
  match l.reverse with
  | y :: x :: _ => !x.isDigit && !y.isDigit
  | _ => false

/-- The letter alphabet scanned by both allocators, in scan order. -/
def lettersAZ : List Char :=
  ['a', 'b', 'c', 'd', 'e', 'f', 'g', 'h', 'i', 'j', 'k', 'l', 'm',
   'n', 'o', 'p', 'q', 'r', 's', 't', 'u', 'v', 'w', 'x', 'y', 'z']

/-- Python's `f"{i:02d}"` for `1 ≤ i ≤ 99`: the two-digit zero-padded
decimal numeral. -/
def pad2 (n : Nat) : Str := [Nat.digitChar (n / 10), Nat.digitChar (n % 10)]

/-- Python's `int(s)` on a string of decimal digits. -/
def digitsToNat (l : Str) : Nat :=
  l.foldl (fun a c => a * 10 + (c.toNat - '0'.toNat)) 0

/-- `used_letters = {child_id[len(parent_id)] for child_id in child_ids if
len(child_id) > len(parent_id)}`: the character of each child id at the
parent's length (`(c.drop n).head?` is `some` exactly when `n < c.length`). -/
def usedLetterChars (parentId : Str) (child_ids : List Str) : List Char :=
  child_ids.filterMap (fun c => (c.drop parentId.length).head?)

/-- `used_numbers = {child_id[len(parent_id):len(parent_id)+2] for child_id
in child_ids if len(child_id) >= len(parent_id) + 2}`. -/
def usedNumberStrs (parentId : Str) (child_ids : List Str) : List Str :=
  child_ids.filterMap (fun c =>
    let t := (c.drop parentId.length).take 2
    if t.length == 2 then some t else none)

/-- The `if child_id.startswith(parent_id)` filter used when collecting the
child ids of the parent from the graph edges. -/
def collectChildIds (parentId : Str) (fids : List Str) : List Str :=
  fids.filter (fun c => parentId.isPrefixOf c)

/-- Core of `utils.get_next_available_child_id` (the second definition in
utils.py, which shadows the first): branch on the last character of the
parent id; scan the letters a-z, respectively the two-digit numbers 01-99,
in order, and return the parent extended by the first unused suffix; the
`raise ValueError` on exhaustion is modelled as `.error`. -/
def nextChildIdFrom (parentId : Str) (child_ids : List Str) : Except Str Str :=
  if (parentId.getLast?.getD '0').isDigit then
    match lettersAZ.find? (fun c => !(usedLetterChars parentId child_ids).contains c) with
    | some c => .ok (parentId ++ [c])
    | none => .error "No available letter suffixes".data
  else
    match (List.range' 1 99).find?
        (fun n => !(usedNumberStrs parentId child_ids).contains (pad2 n)) with
    | some n => .ok (parentId ++ pad2 n)
    | none => .error "No available number suffixes".data

/-- The in-memory graph of file_graph.py (`FileGraph`), with Python dicts
modelled as insertion-ordered association lists and sets as lists. -/
structure FileGraph where
  all_nodes : List Str
  folgezettel_ids : List (Str × Str)
  names : List (Str × Str)
  paths : List (Str × Str)
  extensions : List (Str × Str)
  edges : List (Str × List Str)
  folder_nodes : List Str
deriving Repr, DecidableEq

/-- Python dict lookup `d.get(k)` on an association list (first entry wins,
as in an insertion-ordered dict with unique keys). -/
def assocFind {β : Type} (l : List (Str × β)) (k : Str) : Option β :=
  (l.find? (fun kv => kv.1 == k)).map (fun kv => kv.2)

/-- Python dict assignment `d[k] = v`: replace the value at an existing key
in place, else append a new entry. -/
def assocSet {β : Type} (l : List (Str × β)) (k : Str) (v : β) : List (Str × β) :=
  if l.any (fun kv => kv.1 == k) then
    l.map (fun kv => if kv.1 == k then (k, v) else kv)
  else l ++ [(k, v)]

/-- `utils.get_stable_id_from_folgezettel`: scan `graph.folgezettel_ids` in
insertion order and return the first key whose value is the given id. -/
def get_stable_id_from_folgezettel (g : FileGraph) (fid : Str) : Option Str :=
  (g.folgezettel_ids.find? (fun kv => kv.2 == fid)).map (fun kv => kv.1)

/-- The child-fid collection loop of `utils.get_next_available_child_id`:
`graph.folgezettel_ids[child_stable_id]` for each child, raising `KeyError`
(modelled as `.error`) when a child carries no folgezettel id. -/
def fidsOfChildren (fids : List (Str × Str)) : List Str → Except Str (List Str)
  | [] => .ok []
  | c :: cs =>
    match assocFind fids c with
    | none => .error "KeyError".data
    | some f =>
      match fidsOfChildren fids cs with
      | .error e => .error e
      | .ok rest => .ok (f :: rest)

/-- The child-id collection step of `utils.get_next_available_child_id`,
applied to `graph.edges.get(parent_stable_id, set())`. -/
def childFidsOf (g : FileGraph) (stable : Str) : Except Str (List Str) :=
  fidsOfChildren g.folgezettel_ids ((assocFind g.edges stable).getD [])

/-- `utils.get_next_available_child_id(parent_id, graph)` (the second
definition, the one used by `move_files`): resolve the parent's stable id by
its folgezettel id, collect the folgezettel ids of its edge children that
start with the parent id, then allocate the next suffix. -/
def get_next_available_child_id (parent_id : Str) (g : FileGraph) : Except Str Str :=
  match get_stable_id_from_folgezettel g parent_id with
  | none => .error "Parent node not found in graph".data
  | some stable =>
    match childFidsOf g stable with
    | .error e => .error e
    | .ok fids => nextChildIdFrom parent_id (collectChildIds parent_id fids)

/-- The numeric-suffix collection of `FileGraph.get_next_available_id`
(directed_file_graph.py): children that strictly extend the parent id with a
suffix consisting only of digits, taken as numbers. -/
def fgUsedNums (parent_id : Str) (children : List Str) : List Nat :=
  children.filterMap (fun c =>
    if parent_id.length < c.length && parent_id.isPrefixOf c
        && (c.drop parent_id.length).all Char.isDigit then
      some (digitsToNat (c.drop parent_id.length))
    else none)

/-- The letters-then-numbers tail of `FileGraph.get_next_available_id`:
letters a-z against children extending the parent by exactly one character,
then (when all letters are taken) numbers 01-99, then `raise ValueError`. -/
def fgLettersThenNumbers (parent_id : Str) (children : List Str) : Except Str Str :=
  let used_letters := children.filterMap (fun c =>
    if c.length == parent_id.length + 1 && parent_id.isPrefixOf c then
      (c.drop parent_id.length).head?
    else none)
  match lettersAZ.find? (fun c => !used_letters.contains c) with
  | some c => .ok (parent_id ++ [c])
  | none =>
    match (List.range' 1 99).find? (fun n => !(fgUsedNums parent_id children).contains n) with
    | some n => .ok (parent_id ++ pad2 n)
    | none => .error "No available IDs".data

/-- `FileGraph.get_next_available_id` (directed_file_graph.py), as a function
of the parent id and its direct children `self.edges.get(parent_id, set())`:
a parent of length > 2 ending in a non-digit first tries the numeric
sequence 01-99 and falls through to the letters section when none is free;
every other parent goes straight to letters-then-numbers. -/
def fg_get_next_available_id (parent_id : Str) (children : List Str) : Except Str Str :=
  if 2 < parent_id.length && !(parent_id.getLast?.getD '0').isDigit then
    match (List.range' 1 99).find?
        (fun n => !(fgUsedNums parent_id children).contains n) with
    | some n => .ok (parent_id ++ pad2 n)
    | none => fgLettersThenNumbers parent_id children
  else fgLettersThenNumbers parent_id children

/-- The direct children of a node in the edge map (`graph.edges.get(x, set())`). -/
def childrenOf (g : FileGraph) (stable : Str) : List Str :=
  (assocFind g.edges stable).getD []

/-- `defaultdict(set)` edge insertion `edges[p].add(c)`: create the entry if
missing, add the child if not already present. -/
def edgesAddChild (edges : List (Str × List Str)) (p c : Str) : List (Str × List Str) :=
  if edges.any (fun pc => pc.1 == p) then
    edges.map (fun pc =>
      if pc.1 == p then (pc.1, if pc.2.contains c then pc.2 else pc.2 ++ [c]) else pc)
  else edges ++ [(p, [c])]

/-- The edge update at the end of each `move_files` iteration: find the first
parent whose child set contains the source (`next(...)`), remove the source
from it, then add the source under the target. -/
def moveEdges (g : FileGraph) (s target : Str) : FileGraph :=
  let old_parent := (g.edges.find? (fun pc => pc.2.contains s)).map (fun pc => pc.1)
  let g1 :=
    match old_parent with
    | some pid =>
      { g with edges := g.edges.map (fun (pc : Str × List Str) =>
          if pc.1 == pid then (pc.1, pc.2.erase s) else pc) }
    | none => g
  { g1 with edges := edgesAddChild g1.edges target s }

/-- Base-256 value of a suffix; on the fixed-width suffixes allocated by the
code (one letter, or a zero-padded digit pair) this orders suffixes exactly
as the allocator's scan order does. -/
def suffRank (l : Str) : Nat := l.foldl (fun a c => a * 256 + c.toNat) 0

/-- The allocated IDs are strictly increasing, compared by the rank of their
suffix beyond the parent id `p`. -/
def allocIncreasing (p : Str) (ids : List Str) : Prop :=
  List.Chain' (fun a b => suffRank (a.drop p.length) < suffRank (b.drop p.length)) ids

/--
The per-source loop of `file_operations.move_files`, acting on the graph
state only.  Filesystem effects (`shutil.move`, `os.makedirs`) and the
renames performed by `rename_and_update_links` are modelled as succeeding —
the claims about `move_files` quantify over *successful* calls; every
Python exception path (missing source, `KeyError` on a graph index, the
`ValueError`s of the allocator) is modelled as `none`, matching the
`except` handler that makes the whole call fail.  The accumulator collects
the child IDs allocated to the sources, in order; `tfid`/`tpath` are the
target's folgezettel id and path read once before the loop, as in the code.
-/
def move_files_go (g : FileGraph) (tfid tpath target : Str) :
    List Str → List Str → Option (List Str × FileGraph)
  | [], acc => some (acc.reverse, g)
  | s :: rest, acc =>
    if ¬ (g.all_nodes.contains s = true) then none
    else if tfid ≠ [] then
      match assocFind g.folgezettel_ids target with
      | none => none
      | some pfid =>
        match get_next_available_child_id pfid g with
        | .error _ => none
        | .ok new_id =>
          if new_id ≠ [] then
            let g1 := { g with
              folgezettel_ids := assocSet g.folgezettel_ids s new_id,
              paths := assocSet g.paths s tpath }
            let g2 := moveEdges g1 s target
            move_files_go g2 tfid tpath target rest (new_id :: acc)
          else
            let g2 := moveEdges g s target
            move_files_go g2 tfid tpath target rest acc
    else
      let g1 := { g with paths := assocSet g.paths s tpath }
      let g2 := moveEdges g1 s target
      move_files_go g2 tfid tpath target rest acc

/-- `file_operations.move_files`, graph-state component: validate the target,
read its path (`graph.paths[target_stable_id]`, `KeyError` modelled as
`none`) and id once, then process each source.  Returns the allocated child
IDs in input order together with the updated graph. -/
def move_files_graph (g : FileGraph) (source_stable_ids : List Str)
    (target_stable_id : Str) : Option (List Str × FileGraph) :=
  if ¬ (g.all_nodes.contains target_stable_id = true) then none
  else
    match assocFind g.paths target_stable_id with
    | none => none
    | some tpath =>
      let tfid := (assocFind g.folgezettel_ids target_stable_id).getD []
      move_files_go g tfid tpath target_stable_id source_stable_ids []


-- ---------------------------------------------------------------------
-- zettelrename.py and atomic_ops.py: link rewriting, rename, atomic create
-- ---------------------------------------------------------------------

/-- The characters escaped by Python 3.7+ `re.escape` (its
`_special_chars_map`): `()[]{}?*+-|^$\.&~#`, space, tab, newline,
vertical tab, form feed, carriage return. -/
def specialREChars : List Char :=
  ['(', ')', '[', ']', '{', '}', '?', '*', '+', '-', '|', '^', '$',
   '\\', '.', '&', '~', '#', ' ', '\t', '\n', '\x0b', '\x0c', '\r']

/-- Python `re.escape` (3.7+ semantics, used by `escape_regex`): prefix
every special character with a backslash. -/
def reEscape (s : Str) : Str :=
  s.foldr (fun c acc =>
    if specialREChars.contains c then '\\' :: c :: acc else c :: acc) []

/-- The literal the dead-branch check of `update_links_in_file` compares
against: `pattern.endswith('\\]\\]"')` tests for the five-character suffix
backslash, bracket, backslash, bracket, double quote — the trailing quote
belongs to the tested suffix, so no escaped pattern (they all end in the
four characters backslash-bracket-backslash-bracket) ever passes. -/
def endsCheckStr : Str := ['\\', ']', '\\', ']', '"']

/-- `re.sub` with a `re.escape`d (hence literal) pattern and a literal
replacement: replace occurrences of `pat` left to right, non-overlapping,
never rescanning the replacement.  (The empty pattern does not arise: every
pattern of `update_links_in_file` ends in `]]`.) -/
def replaceSub (pat rep : Str) : Str → Str
  | [] => []
  | c :: rest =>
    if h : pat ≠ [] ∧ pat.isPrefixOf (c :: rest) then
      rep ++ replaceSub pat rep ((c :: rest).drop pat.length)
    else c :: replaceSub pat rep rest
termination_by s => s.length
decreasing_by
  · simp only [List.length_drop, List.length_cons]
    have hp : 1 ≤ pat.length := by
      cases pat with
      | nil => exact absurd rfl h.1
      | cons a l => simp
    omega
  · simp

/-- The alt-text substitution
`re.sub(pattern3, "[[nid nname|\1]]", content)` with
`pattern3 = \[\[oid oname\|([^\]]*)\]\]`: scan left to right; at a position
starting with the literal `[[oid oname|`, the group `([^\]]*)` takes the
maximal run of non-`]` characters (no shorter run can be followed by `\]`),
and the match succeeds exactly when `]]` follows; on success the whole
match is replaced, the captured alt text is kept via `\1`, and scanning
resumes after the match. -/
def aliasReplace (oid oname nid nname : Str) : Str → Str
  | [] => []
  | c :: rest =>
    if ('[' :: '[' :: oid ++ ' ' :: oname ++ ['|']).isPrefixOf (c :: rest) then
      if (']' :: [']']).isPrefixOf
          (((c :: rest).drop ('[' :: '[' :: oid ++ ' ' :: oname ++ ['|']).length).dropWhile
            (fun x => x ≠ ']')) then
        '[' :: '[' :: nid ++ ' ' :: nname ++ ['|'] ++
          (((c :: rest).drop ('[' :: '[' :: oid ++ ' ' :: oname ++ ['|']).length).takeWhile
            (fun x => x ≠ ']')) ++ [']', ']'] ++
          aliasReplace oid oname nid nname
            ((((c :: rest).drop ('[' :: '[' :: oid ++ ' ' :: oname ++ ['|']).length).dropWhile
              (fun x => x ≠ ']')).drop 2)
      else c :: aliasReplace oid oname nid nname rest
    else c :: aliasReplace oid oname nid nname rest
termination_by s => s.length
decreasing_by
  all_goals
    first
    | (simp; done)
    | (simp only [List.length_drop]
       refine Nat.lt_of_le_of_lt (Nat.sub_le _ 2) ?_
       refine Nat.lt_of_le_of_lt ((List.dropWhile_suffix _).length_le) ?_
       simp only [List.length_drop, List.length_cons, List.length_append]
       omega)

/-- The content transformation of `update_links_in_file` (zettelrename.py
lines 62-90).  The three patterns are applied in source order: the escaped
standard link, the escaped ID-only link (both dispatched to the literal
branch of the loop — their escaped patterns contain no `\|` because the
ids and names handled by the theorems are free of `|` and `\`), then the
alt-text pattern.  `new_text` for a literal pattern reproduces the source's
check `pattern.endswith('\\]\\]"')` on the escaped pattern verbatim. -/
def update_links_content (oid oname nid nname content : Str) : Str :=
  let lit1 := '[' :: '[' :: oid ++ ' ' :: oname ++ [']', ']']
  let lit2 := '[' :: '[' :: oid ++ [']', ']']
  let newText := fun (pat : Str) =>
    if endsCheckStr.isSuffixOf pat then '[' :: '[' :: nid ++ [']', ']']
    else '[' :: '[' :: nid ++ ' ' :: nname ++ [']', ']']
  let c1 := replaceSub lit1 (newText (reEscape lit1)) content
  let c2 := replaceSub lit2 (newText (reEscape lit2)) c1
  aliasReplace oid oname nid nname c2

/-- A directory tree flattened to an association list from file path to
file content (every file lives under the searched base directory). -/
abbrev Fs := List (Str × Str)

/-- `os.path.splitext` (posixpath semantics): the extension is the suffix
from the last `.` that lies inside the basename and has at least one
non-dot basename character before it. -/
def splitExt (p : Str) : Str × Str :=
  let base := (p.reverse.takeWhile (fun c => c ≠ '/')).reverse
  let afterRev := base.reverse.takeWhile (fun c => c ≠ '.')
  let pre := base.take (base.length - afterRev.length - 1)
  if base.contains '.' && !(pre.all (fun c => c == '.')) then
    (p.take (p.length - afterRev.length - 1), '.' :: afterRev.reverse)
  else (p, [])

/-- `should_update_links`: only `.md` and `.txt` files (case-insensitive
extension) have their links rewritten. -/
def should_update_links (ext : Str) : Bool :=
  [".md".data, ".txt".data].contains (ext.map Char.toLower)

/-- Literal substring search: `rg -l` with a `re.escape`d pattern matches a
file exactly when the literal occurs in its content. -/
def containsSub (pat : Str) : Str → Bool
  | [] => pat.isEmpty
  | c :: rest => pat.isPrefixOf (c :: rest) || containsSub pat rest

/-- Does the content match the alt-text pattern
`\[\[oid oname\|([^\]]*)\]\]` somewhere? (`rg` with the third search
pattern of `find_links_to_file`.) -/
def hasAliasLink (oid oname : Str) : Str → Bool
  | [] => false
  | c :: rest =>
    (('[' :: '[' :: oid ++ ' ' :: oname ++ ['|']).isPrefixOf (c :: rest)
      && (']' :: [']']).isPrefixOf
        (((c :: rest).drop ('[' :: '[' :: oid ++ ' ' :: oname ++ ['|']).length).dropWhile
          (fun x => x ≠ ']')))
    || hasAliasLink oid oname rest

/-- `find_links_to_file`: the files whose content matches one of the three
link patterns.  (ripgrep reports a set of files; the model keeps them in
filesystem order.) -/
def find_links_to_file (fs : Fs) (oid oname : Str) : List Str :=
  (fs.filter (fun kv =>
    containsSub ('[' :: '[' :: oid ++ ' ' :: oname ++ [']', ']']) kv.2
    || containsSub ('[' :: '[' :: oid ++ [']', ']']) kv.2
    || hasAliasLink oid oname kv.2)).map (fun kv => kv.1)

/-- `os.remove`. -/
def removePath (fs : Fs) (p : Str) : Fs := fs.filter (fun kv => !(kv.1 == p))

/-- POSIX `os.rename`: `FileNotFoundError` (modelled `none`) when the
source does not exist; otherwise the content moves to the destination,
*silently replacing* an existing destination file — POSIX rename
overwrites and raises no error for an existing destination. -/
def os_rename (fs : Fs) (src dst : Str) : Option Fs :=
  match assocFind fs src with
  | none => none
  | some content => some (assocSet (removePath fs src) dst content)

/-- `update_links_in_file` acting on the filesystem: read the file (a
missing file raises, caught to `False` with the filesystem unchanged),
rewrite the content, write it back, return `True`. -/
def update_links_file (fs : Fs) (path oid oname nid nname : Str) : Bool × Fs :=
  match assocFind fs path with
  | none => (false, fs)
  | some content =>
    (true, assocSet fs path (update_links_content oid oname nid nname content))

/-- `rename_and_update_links` (zettelrename.py lines 104-149): for an
unsupported source extension just rename; otherwise collect the files
linking to the old id/name, rename, and rewrite links in each supported
affected file.  Any exception — in this model only the `os.rename` on a
missing source — is caught by the bare `except`, returning
`(False, [])` with the filesystem unchanged. -/
def rename_and_update_links (fs : Fs)
    (old_path new_path oid oname nid nname : Str) : (Bool × List Str) × Fs :=
  if !(should_update_links (splitExt old_path).2) then
    match os_rename fs old_path new_path with
    | none => ((false, []), fs)
    | some fs1 => ((true, []), fs1)
  else
    let affected := find_links_to_file fs oid oname
    match os_rename fs old_path new_path with
    | none => ((false, []), fs)
    | some fs1 =>
      let res := affected.foldl (fun acc p =>
        if should_update_links (splitExt p).2 then
          match update_links_file acc.2 p oid oname nid nname with
          | (true, fs2) => (acc.1 ++ [p], fs2)
          | (false, fs2) => (acc.1, fs2)
        else acc) ([], fs1)
      ((true, res.1), res.2)

/-- `AtomicFileOps.atomic_create`: open the path for writing — creating the
file or *truncating an existing one* — write the content, then run the
update callback (`update_func`); an exception (modelled: the callback
returning `none`) triggers the rollback, which removes the path whenever it
exists, regardless of whether a file was there before the call. -/
def atomic_create (fs : Fs) (path content : Str)
    (update : Fs → Option Fs) : Bool × Fs :=
  let fs1 := assocSet fs path content
  match update fs1 with
  | some fs2 => (true, fs2)
  | none => (false, removePath fs1 path)


-- ---------------------------------------------------------------------
-- get_hierarchy.py: build_combined_graph (claims C7, C8)
-- ---------------------------------------------------------------------

/-- An abstract directory tree: `os.listdir` order is the list order (the
walk sorts it), a file carries its name (with extension) and the
nanosecond timestamp `min(st_ctime_ns, st_mtime_ns)` that
`get_file_creation_time` stringifies. -/
inductive FSEntry where
  | file (name : Str) (ctime : Nat)
  | dir (name : Str) (entries : List FSEntry)
deriving Repr

/-- The stable node keys of `build_combined_graph`.  The three key
namespaces are disjoint in the source — a decimal `str(creation_time)`,
`"dir_" + md5(absolute path)` and `"surrogate_" + parent_id` — and the
md5 of the absolute directory path is modelled as the path itself
(md5 treated as injective). -/
inductive NodeKey where
  | fileK (t : Nat)
  | dirK (absPath : Str)
  | surr (fid : Str)
deriving Repr, DecidableEq

/-- `GraphNode` of get_hierarchy.py (the `__slots__` fields). -/
structure GNode where
  name : Str
  path : Str
  is_directory : Bool
  id : Str
  extension : Str
  is_surrogate : Bool
deriving Repr, DecidableEq

/-- The combined graph returned by `build_combined_graph`. -/
structure CombinedGraph where
  nodes : List (NodeKey × GNode)
  edges : List (NodeKey × List NodeKey)
  id_nodes : List NodeKey
  folder_nodes : List NodeKey
deriving Repr, DecidableEq

/-- `os.path.normpath` restricted to the inputs the walk produces: `""`
(the root call) becomes `"."`, a leading `"./"` (paths joined under the
root's relative path `"."`) is stripped, and every other already-clean
relative path is unchanged. -/
def normpathStr (p : Str) : Str :=
  if p = [] then ['.']
  else if ('.' :: '/' :: []).isPrefixOf p then p.drop 2
  else p

/-- `os.path.basename`: the part after the last `/`. -/
def basenameStr (p : Str) : Str := (p.reverse.takeWhile (fun c => c ≠ '/')).reverse

/-- `os.path.dirname`: the part before the last `/` (empty when there is
no separator). -/
def dirnameStr (p : Str) : Str :=
  if p.contains '/' then (p.reverse.dropWhile (fun c => c ≠ '/')).reverse.dropLast
  else []

/-- `os.path.join` for a nonempty left and a relative right component. -/
def joinPath (a b : Str) : Str := a ++ '/' :: b

/-- Python `name.split(None, 1)`: strip leading whitespace, take the first
whitespace-free word, then the remainder after the separating run (kept
verbatim, dropped if all whitespace). -/
def splitMax1 (s : Str) : List Str :=
  let s1 := s.dropWhile Char.isWhitespace
  if s1 = [] then []
  else
    let w := s1.takeWhile (fun c => ¬ c.isWhitespace)
    let rest := (s1.drop w.length).dropWhile Char.isWhitespace
    if rest = [] then [w] else [w, rest]

/-- Code-point comparison of strings, as Python `sorted` uses. -/
def lexLe : Str → Str → Bool
  | [], _ => true
  | _ :: _, [] => false
  | x :: xs, y :: ys => if x = y then lexLe xs ys else decide (x < y)

/-- The name an `os.listdir` entry sorts by. -/
def entryName : FSEntry → Str
  | .file n _ => n
  | .dir n _ => n

/-- Insertion step of sorting the directory entries. -/
def insertSorted (e : FSEntry) : List FSEntry → List FSEntry
  | [] => [e]
  | f :: fs =>
    if lexLe (entryName e) (entryName f) then e :: f :: fs
    else f :: insertSorted e fs

/-- `sorted(entries)` (insertion sort — only the resulting order matters). -/
def sortEntries (l : List FSEntry) : List FSEntry := l.foldr insertSorted []

/-- `SUPPORTED_EXTENSIONS = {'.md', '.txt', '.nb', '.pdf'}`. -/
def supportedExts : List Str := [".md".data, ".txt".data, ".nb".data, ".pdf".data]

mutual

/-- Size of a tree entry, for the walk's termination measure. -/
def entSize : FSEntry → Nat
  | .file _ _ => 1
  | .dir _ subs => 2 + listSize subs

/-- Size of an entry list. -/
def listSize : List FSEntry → Nat
  | [] => 0
  | e :: es => entSize e + listSize es

end

mutual

/-- The stable keys a subtree will contribute to the node map, in listing
order: one file key per supported file, one directory key per directory
(keyed by absolute path, standing in for its md5). -/
def keysOfEntry : Str → FSEntry → List NodeKey
  | _, .file n t =>
    if supportedExts.contains (((splitExt n).2).map Char.toLower) then
      [.fileK t]
    else []
  | cur, .dir n subs => .dirK (joinPath cur n) :: keysOfList (joinPath cur n) subs

/-- The stable keys of a list of entries inside the absolute directory. -/
def keysOfList : Str → List FSEntry → List NodeKey
  | _, [] => []
  | cur, e :: es => keysOfEntry cur e ++ keysOfList cur es

end

mutual

/-- The normalized relative paths a subtree's directories will occupy in
`seen_paths`. -/
def relsOfEntry : Str → FSEntry → List Str
  | _, .file _ _ => []
  | rp, .dir n subs =>
    normpathStr (joinPath rp n) :: relsOfList (normpathStr (joinPath rp n)) subs

/-- The normalized relative directory paths of a list of entries. -/
def relsOfList : Str → List FSEntry → List Str
  | _, [] => []
  | rp, e :: es => relsOfEntry rp e ++ relsOfList rp es

end

/-- Node-map lookup (`nodes.get`), keyed by `NodeKey`. -/
def nkFind (l : List (NodeKey × GNode)) (k : NodeKey) : Option GNode :=
  (l.find? (fun kv => kv.1 == k)).map (fun kv => kv.2)

/-- Python dict assignment `nodes[k] = v`: replace in place at an existing
key, else append. -/
def nkSet (l : List (NodeKey × GNode)) (k : NodeKey) (v : GNode) :
    List (NodeKey × GNode) :=
  if l.any (fun kv => kv.1 == k) then
    l.map (fun kv => if kv.1 == k then (k, v) else kv)
  else l ++ [(k, v)]

/-- `defaultdict(set)` insertion `edges[p].add(c)` over `NodeKey`s. -/
def nkAddChild (edges : List (NodeKey × List NodeKey)) (p c : NodeKey) :
    List (NodeKey × List NodeKey) :=
  if edges.any (fun pc => pc.1 == p) then
    edges.map (fun pc =>
      if pc.1 == p then (pc.1, if pc.2.contains c then pc.2 else pc.2 ++ [c]) else pc)
  else edges ++ [(p, [c])]

/-- Python `set.add` on a set of node keys. -/
def nkSetAdd (s : List NodeKey) (k : NodeKey) : List NodeKey :=
  if s.contains k then s else s ++ [k]

/-- The node shared by the file and directory branches of
`process_directory`: split the raw name once on whitespace; when the first
word is a valid node id it becomes the `id` and the rest the display name,
else the raw name is kept whole. -/
def mkNamedNode (rawName path : Str) (isDir : Bool) (ext : Str) : GNode :=
  match splitMax1 rawName with
  | [w, n2] =>
    if is_valid_node_id w then
      { name := n2, path := path, is_directory := isDir, id := w,
        extension := ext, is_surrogate := false }
    else
      { name := rawName, path := path, is_directory := isDir, id := [],
        extension := ext, is_surrogate := false }
  | _ =>
    { name := rawName, path := path, is_directory := isDir, id := [],
      extension := ext, is_surrogate := false }

/-- A unit of work in the depth-first walk of `process_directory`: a listed
entry of a directory (absolute path and normalized relative path of its
parent), or the body of `process_directory` itself for a directory
(with its not-yet-normalized relative path). -/
inductive Job where
  | ent (cur rp : Str) (e : FSEntry)
  | dirbody (cur rel : Str) (entries : List FSEntry)
deriving Repr

/-- Termination measure of a job. -/
def jobSize : Job → Nat
  | .ent _ _ e => entSize e
  | .dirbody _ _ l => 1 + listSize l

/-- Phase 1 of `build_combined_graph` (`process_directory`), as a worklist
walk in the source's depth-first order.  State: `seen_paths` (in insertion
order) and the insertion-ordered node dict.  The `if relative_path:` guard
of the source is always true — `normpath("")` is `"."` — so every directory
including the root gets a node; a file is keyed by its creation time,
skipped when its extension is unsupported, and stores the directory part of
its relative path (`"."` replaced by `""`). -/
def walk : List Job → (List Str × List (NodeKey × GNode)) →
    List Str × List (NodeKey × GNode)
  | [], st => st
  | .ent _ rp (.file n t) :: rest, st =>
    if supportedExts.contains (((splitExt n).2).map Char.toLower) then
      let entryRel := joinPath rp n
      let p0 := dirnameStr entryRel
      let node := mkNamedNode (splitExt n).1
        (if p0 = ['.'] then [] else p0) false (splitExt n).2
      walk rest (st.1, nkSet st.2 (.fileK t) node)
    else walk rest st
  | .ent cur rp (.dir n subs) :: rest, st =>
    walk (.dirbody (joinPath cur n) (joinPath rp n) subs :: rest) st
  | .dirbody cur rel entries :: rest, st =>
    if st.1.contains (normpathStr rel) then walk rest st
    else
      walk ((sortEntries entries).map (fun e => Job.ent cur (normpathStr rel) e) ++ rest)
        (st.1 ++ [normpathStr rel],
         nkSet st.2 (.dirK cur) (mkNamedNode (basenameStr cur) (normpathStr rel) true []))
termination_by jobs _ => (jobs.map jobSize).sum
decreasing_by
  all_goals simp only [List.map_cons, List.sum_cons, List.map_append, List.sum_append,
    List.map_map, jobSize, entSize]
  all_goals try omega
  have hins : ∀ (e : FSEntry) (l : List FSEntry),
      listSize (insertSorted e l) = entSize e + listSize l := by
    intro e l
    induction l with
    | nil => simp [insertSorted, listSize]
    | cons f fs ih =>
      simp only [insertSorted]
      by_cases hc : lexLe (entryName e) (entryName f) = true
      · simp [hc, listSize]
      · simp only [hc, Bool.false_eq_true, if_false, listSize, ih]
        omega
  have hsort : ∀ l : List FSEntry, listSize (sortEntries l) = listSize l := by
    intro l
    induction l with
    | nil => rfl
    | cons e es ih =>
      show listSize (insertSorted e (sortEntries es)) = _
      rw [hins, ih, listSize]
  have hmapsum : ∀ l : List FSEntry,
      ((l.map (jobSize ∘ fun e => Job.ent cur (normpathStr rel) e)).sum) = listSize l := by
    intro l
    induction l with
    | nil => rfl
    | cons e es ih =>
      show entSize e + (es.map _).sum = listSize (e :: es)
      rw [ih]
      rfl
  rw [hmapsum, hsort]
  omega

/-- The node map produced by phase 1 for a root directory. -/
def process_directory_nodes (dirPath : Str) (entries : List FSEntry) :
    List (NodeKey × GNode) :=
  (walk [.dirbody dirPath [] entries] ([], [])).2

/-- The surrogate node `GraphNode(f"Surrogate {parent_id}", "", False)` with
`id` set to the parent id afterwards: `is_directory=False` is the third
positional argument, `is_surrogate` is left at its default `False`, and
`GraphNode.__init__` normalizes the empty path to `"."`. -/
def surrogateNode (pid : Str) : GNode :=
  { name := "Surrogate ".data ++ pid, path := ['.'], is_directory := false,
    id := pid, extension := [], is_surrogate := false }

/-- Phase 2 of `build_combined_graph`: iterate over `nodelist` — a list the
loop itself appends surrogates to — tracking `folder_nodes` and `id_nodes`;
an ID-bearing node with a nonempty derived parent gets an edge from the
first node carrying that parent id, or from a freshly created surrogate
(appended to the dict and to the worklist; note the source passes
`is_directory=False` positionally and never sets `is_surrogate`, and
`GraphNode.__init__` normalizes its empty path to `"."`); all other nodes
get a folder edge from the directory node owning their path when one
exists. -/
def phase2 (work nodes : List (NodeKey × GNode))
    (edges : List (NodeKey × List NodeKey)) (idn fol : List NodeKey) :
    CombinedGraph :=
  match work with
  | [] => ⟨nodes, edges, idn, fol⟩
  | (k, node) :: rest =>
    let fol1 := if node.is_directory then nkSetAdd fol k else fol
    let idn1 := if node.id ≠ [] then nkSetAdd idn k else idn
    if h : node.id ≠ [] ∧ get_parent_id node.id ≠ [] then
      match nodes.find? (fun kn => kn.2.id == get_parent_id node.id) with
      | some pkn => phase2 rest nodes (nkAddChild edges pkn.1 k) idn1 fol1
      | none =>
        phase2
          (rest ++ [(.surr (get_parent_id node.id), surrogateNode (get_parent_id node.id))])
          (nkSet nodes (.surr (get_parent_id node.id)) (surrogateNode (get_parent_id node.id)))
          (nkAddChild edges (.surr (get_parent_id node.id)) k)
          (nkSetAdd idn1 (.surr (get_parent_id node.id))) fol1
    else
      let ppath := if node.is_directory then dirnameStr node.path else node.path
      if ppath ≠ [] ∧ ppath ≠ ['.'] then
        match nodes.find? (fun kn => kn.2.is_directory && kn.2.path == ppath) with
        | some pkn =>
          if pkn.1 ≠ k then phase2 rest nodes (nkAddChild edges pkn.1 k) idn1 fol1
          else phase2 rest nodes edges idn1 fol1
        | none => phase2 rest nodes edges idn1 fol1
      else phase2 rest nodes edges idn1 fol1
termination_by (work.map (fun kn => 4 ^ kn.2.id.length)).sum
decreasing_by
  all_goals simp only [List.map_cons, List.sum_cons, List.map_append, List.sum_append,
    List.map_nil, List.sum_nil, Nat.add_zero, surrogateNode]
  all_goals try
    (have hp : 0 < 4 ^ node.id.length := pow_pos (by omega) _
     omega)
  · have hlt : (get_parent_id node.id).length < node.id.length := by
      have h1 : ¬ node.id.length ≤ 2 := by
        intro hle
        apply h.2
        show get_parent_id node.id = []
        simp [get_parent_id, hle]
      show (get_parent_id node.id).length < node.id.length
      unfold get_parent_id
      rw [if_neg h1]
      split
      · simp only [List.length_take]
        omega
      · split
        · simp only [List.length_dropLast]
          omega
        · simp only [List.length_take]
          omega
    have hpow : (4 : Nat) ^ (get_parent_id node.id).length < 4 ^ node.id.length :=
      Nat.pow_lt_pow_right (by omega) hlt
    rw [Nat.add_comm]
    exact Nat.add_lt_add_right hpow _

/-- `build_combined_graph`: phase 1 walk from the root directory, then
phase 2 over `nodelist = list(nodes.items())`. -/
def build_combined_graph (dirPath : Str) (entries : List FSEntry) : CombinedGraph :=
  phase2 (process_directory_nodes dirPath entries)
    (process_directory_nodes dirPath entries) [] [] []


/-- All the stable keys a job will contribute to the node map. -/
def jobKeys : Job → List NodeKey
  | .ent cur _ e => keysOfEntry cur e
  | .dirbody cur _ l => .dirK cur :: keysOfList cur l

/-- All the normalized relative directory paths a job will enter into
`seen_paths`. -/
def jobRels : Job → List Str
  | .ent _ rp e => relsOfEntry rp e
  | .dirbody _ rel l => normpathStr rel :: relsOfList (normpathStr rel) l

-- ===================================================================
-- THEOREMS
-- ===================================================================

theorem goodRestB_iff : ∀ l : Str, goodRestB l = true ↔ GoodRest l
  | [] => ⟨fun _ => GoodRest.nil, fun _ => rfl⟩
  | [c] => by
    constructor
    · intro h
      simp only [goodRestB, Bool.not_eq_true'] at h
      exact GoodRest.bare c (by simp [h])
    · intro h
      cases h with
      | bare _ hc => simp [goodRestB, hc]
  | [c, s] => by
    constructor
    · intro h
      simp only [goodRestB, Bool.and_eq_true, Bool.not_eq_true'] at h
      exact GoodRest.barespec c s (by simp [h.1]) (by simpa using h.2)
    · intro h
      cases h with
      | barespec _ _ hc hs => simp [goodRestB, hc]; simpa using hs
  | c :: d1 :: d2 :: l => by
    constructor
    · intro h
      simp only [goodRestB, Bool.and_eq_true, Bool.not_eq_true'] at h
      obtain ⟨⟨⟨h1, h2⟩, h3⟩, h4⟩ := h
      exact GoodRest.hop c d1 d2 l (by simp [h1]) h2 h3 ((goodRestB_iff l).mp h4)
    · intro h
      cases h with
      | hop _ _ _ _ hc h1 h2 h3 =>
        simp [goodRestB, hc, h1, h2]
        exact (goodRestB_iff l).mpr h3

theorem get_parent_id_length_lt (l : Str) (h : get_parent_id l ≠ []) :
    (get_parent_id l).length < l.length := by
  have h1 : ¬ l.length ≤ 2 := by
    intro hle
    apply h
    simp [get_parent_id, hle]
  unfold get_parent_id
  rw [if_neg h1]
  split
  · simp only [List.length_take]
    omega
  · split
    · simp only [List.length_dropLast]
      omega
    · simp only [List.length_take]
      omega

theorem special_not_digit : ∀ s ∈ specialChars, s.isDigit = false := by decide

theorem goodRest_validRestLoop {l : Str} (h : GoodRest l) : validRestLoop l = true := by
  induction h with
  | nil => rfl
  | bare c hc => simp [validRestLoop, hc]
  | barespec c s hc hs =>
    simp [validRestLoop, hc]
    simpa using hs
  | hop c d1 d2 l hc h1 h2 _ ih =>
    simp [validRestLoop, hc, h1, ih]

theorem grammar_valid_accepted (s : Str) (h : grammarValid s = true) :
    is_valid_node_id s = true := by
  match s with
  | [] => simp [grammarValid] at h
  | [_] => simp [grammarValid] at h
  | c1 :: c2 :: rest =>
    simp only [grammarValid, Bool.and_eq_true] at h
    obtain ⟨⟨h1, h2⟩, h3⟩ := h
    match rest with
    | [] => simp [is_valid_node_id, h1, h2]
    | r :: rest' =>
      have hlen : ¬ (c1 :: c2 :: r :: rest').length < 2 := by simp
      have hlen2 : ((c1 :: c2 :: r :: rest').length == 2) = false := by
        simp [List.length_cons]
      simp only [is_valid_node_id, if_neg hlen, hlen2, Bool.false_eq_true, if_false]
      simp only [Bool.and_eq_true]
      exact ⟨⟨h1, h2⟩, goodRest_validRestLoop ((goodRestB_iff _).mp h3)⟩

theorem getLastQ_cons_ne {α : Type} (x : α) (l : List α) (h : l ≠ []) :
    (x :: l).getLast? = l.getLast? := by
  match l with
  | [] => exact absurd rfl h
  | y :: t => exact List.getLast?_cons_cons

theorem dropLast_dropLast {α : Type} (l : List α) :
    l.dropLast.dropLast = l.take (l.length - 2) := by
  rw [List.dropLast_eq_take, List.dropLast_eq_take, List.take_take, List.length_take]
  congr 1
  omega

theorem lastIsDigitB_singleton (c : Char) : lastIsDigitB [c] = c.isDigit := by
  simp [lastIsDigitB]

theorem lastIsDigitB_pair (c s : Char) : lastIsDigitB [c, s] = s.isDigit := by
  simp [lastIsDigitB, List.getLast?_cons_cons]

theorem lastIsDigitB_cons (x : Char) (l : Str) (h : l ≠ []) :
    lastIsDigitB (x :: l) = lastIsDigitB l := by
  simp [lastIsDigitB, getLastQ_cons_ne x l h]

theorem restParent_length_lt (l : Str) (h : l ≠ []) :
    (restParent l).length < l.length := by
  have hl : 0 < l.length := List.length_pos.mpr h
  unfold restParent
  split
  · simp only [List.length_dropLast]
    omega
  · simp only [List.length_dropLast]
    omega

theorem get_parent_id_cons (a b : Char) (rest : Str) (h : rest ≠ []) :
    get_parent_id (a :: b :: rest) = a :: b :: restParent rest := by
  match rest with
  | [c] =>
    by_cases hc : c.isDigit <;>
      simp [get_parent_id, restParent, lastIsDigitB, hc]
  | c :: c' :: rest' =>
    have hlen : ¬ (a :: b :: c :: c' :: rest').length ≤ 2 := by simp
    have hlen3 : ((a :: b :: c :: c' :: rest').length == 3) = false := by
      simp [List.length_cons]
    have hlast : (a :: b :: c :: c' :: rest').getLast? = (c :: c' :: rest').getLast? := by
      rw [getLastQ_cons_ne, getLastQ_cons_ne] <;> simp
    have hlid : lastIsDigitB (c :: c' :: rest') =
        ((c :: c' :: rest').getLast?.getD '0').isDigit := by
      simp only [lastIsDigitB]
      cases hgl : (c :: c' :: rest').getLast? with
      | none => simp [List.getLast?_eq_none_iff] at hgl
      | some y => simp
    unfold get_parent_id
    rw [if_neg hlen, hlen3]
    simp only [Bool.false_eq_true, if_false, hlast]
    by_cases hd : ((c :: c' :: rest').getLast?.getD '0').isDigit
    · simp only [hd, Bool.not_true, Bool.false_eq_true, if_false]
      unfold restParent
      rw [hlid, if_pos hd, dropLast_dropLast]
      rw [show (a :: b :: c :: c' :: rest').length - 2
          = ((c :: c' :: rest').length - 2) + 1 + 1 by simp only [List.length_cons]; omega]
      rw [List.take_succ_cons, List.take_succ_cons]
    · simp only [hd, Bool.not_false, if_true]
      unfold restParent
      rw [hlid, if_neg hd]
      rw [List.dropLast_cons_of_ne_nil (by simp),
        List.dropLast_cons_of_ne_nil (show (c :: c' :: rest' : Str) ≠ [] by simp)]

theorem goodRest_lastDigit_length {l : Str} (h : GoodRest l)
    (hd : lastIsDigitB l = true) : 3 ≤ l.length := by
  cases h with
  | nil => simp [lastIsDigitB] at hd
  | bare c hc =>
    rw [lastIsDigitB_singleton] at hd
    exact absurd hd hc
  | barespec c s hc hs =>
    have := special_not_digit s hs
    rw [lastIsDigitB_pair, this] at hd
    exact absurd hd (by simp)
  | hop c d1 d2 l _ _ _ _ => simp only [List.length_cons]; omega

theorem weight_cons3 (c d1 d2 : Char) (m : Str) (hc : ¬c.isDigit)
    (h1 : d1.isDigit) (h2 : d2.isDigit) :
    weight (c :: d1 :: d2 :: m) = weight m + 2 := by
  simp [weight, List.filter, hc, h1, h2]
  omega

theorem goodRest_restParent {l : Str} (h : GoodRest l) (hne : l ≠ []) :
    GoodRest (restParent l) ∧ weight (restParent l) + 1 = weight l := by
  induction h with
  | nil => exact absurd rfl hne
  | bare c hc =>
    have hb : c.isDigit = false := by simp [hc]
    refine ⟨?_, ?_⟩
    · simp only [restParent, lastIsDigitB_singleton, hb, Bool.false_eq_true, if_false,
        List.dropLast_single]
      exact GoodRest.nil
    · simp [restParent, lastIsDigitB_singleton, hb, weight, List.filter]
  | barespec c s hc hs =>
    have hsd := special_not_digit s hs
    have hcb : c.isDigit = false := by simp [hc]
    refine ⟨?_, ?_⟩
    · simp only [restParent, lastIsDigitB_pair, hsd, Bool.false_eq_true, if_false]
      simp only [List.dropLast_cons_of_ne_nil (show [s] ≠ ([] : Str) by simp),
        List.dropLast_single]
      exact GoodRest.bare c hc
    · simp [restParent, lastIsDigitB_pair, hsd, weight, List.filter, hcb]
  | hop c d1 d2 l' hc h1 h2 h3 ih =>
    have hcb : c.isDigit = false := by simp [hc]
    by_cases hl : l' = []
    · subst hl
      have hld : lastIsDigitB [c, d1, d2] = true := by
        simp [lastIsDigitB, List.getLast?_cons_cons, h2]
      refine ⟨?_, ?_⟩
      · simp only [restParent, hld, if_true]
        simp only [List.dropLast_cons_of_ne_nil (show [d1, d2] ≠ ([] : Str) by simp),
          List.dropLast_cons_of_ne_nil (show [d2] ≠ ([] : Str) by simp),
          List.dropLast_single, List.dropLast_cons_of_ne_nil (show [d1] ≠ ([] : Str) by simp)]
        exact GoodRest.bare c hc
      · simp only [restParent, hld, if_true]
        simp only [List.dropLast_cons_of_ne_nil (show [d1, d2] ≠ ([] : Str) by simp),
          List.dropLast_cons_of_ne_nil (show [d2] ≠ ([] : Str) by simp),
          List.dropLast_single, List.dropLast_cons_of_ne_nil (show [d1] ≠ ([] : Str) by simp)]
        simp [weight, List.filter, hcb, h1, h2]
    · have hld : lastIsDigitB (c :: d1 :: d2 :: l') = lastIsDigitB l' := by
        rw [lastIsDigitB_cons _ _ (by simp), lastIsDigitB_cons _ _ (by simp),
          lastIsDigitB_cons _ _ hl]
      have hrp : restParent (c :: d1 :: d2 :: l') = c :: d1 :: d2 :: restParent l' := by
        unfold restParent
        rw [hld]
        by_cases hdig : lastIsDigitB l' = true
        · have hlen3 := goodRest_lastDigit_length h3 hdig
          have hne1 : l'.dropLast ≠ [] := by
            have hdl := List.length_dropLast l'
            intro hx
            rw [hx] at hdl
            simp at hdl
            omega
          rw [if_pos hdig, if_pos hdig,
            List.dropLast_cons_of_ne_nil (show d1 :: d2 :: l' ≠ [] by simp),
            List.dropLast_cons_of_ne_nil (show d2 :: l' ≠ [] by simp),
            List.dropLast_cons_of_ne_nil hl,
            List.dropLast_cons_of_ne_nil (show d1 :: d2 :: l'.dropLast ≠ [] by simp),
            List.dropLast_cons_of_ne_nil (show d2 :: l'.dropLast ≠ [] by simp),
            List.dropLast_cons_of_ne_nil hne1]
        · rw [if_neg hdig, if_neg hdig,
            List.dropLast_cons_of_ne_nil (show d1 :: d2 :: l' ≠ [] by simp),
            List.dropLast_cons_of_ne_nil (show d2 :: l' ≠ [] by simp),
            List.dropLast_cons_of_ne_nil hl]
      obtain ⟨ih1, ih2⟩ := ih hl
      refine ⟨?_, ?_⟩
      · rw [hrp]
        exact GoodRest.hop c d1 d2 _ hc h1 h2 ih1
      · rw [hrp, weight_cons3 c d1 d2 _ hc h1 h2, weight_cons3 c d1 d2 _ hc h1 h2]
        omega

theorem scenarioB_1 : is_valid_node_id "08r60e!".data = true := by decide

theorem scenarioB_2 : is_valid_node_id "03e@07".data = false := by decide

theorem scenarioB_3 : get_parent_id "01a01b".data = "01a01".data := by decide

theorem ancestors_weight (a b : Char) (rest : Str) (hg : GoodRest rest) :
    (get_all_parent_ids (a :: b :: rest)).length = weight rest := by
  by_cases h : rest = []
  · subst h
    simp [get_all_parent_ids, get_parent_id, weight]
  · have hcons := get_parent_id_cons a b rest h
    obtain ⟨hg', hw⟩ := goodRest_restParent hg h
    rw [get_all_parent_ids]
    simp only [hcons]
    rw [dif_neg (by simp)]
    simp only [List.length_cons]
    rw [ancestors_weight a b (restParent rest) hg']
    omega
termination_by rest.length
decreasing_by exact restParent_length_lt rest h

theorem ancestors_chain (s : Str) :
    List.Chain' (fun x y => y.length < x.length) (s :: get_all_parent_ids s) := by
  rw [get_all_parent_ids]
  by_cases h : get_parent_id s = []
  · simp only [dif_pos h]
    exact List.chain'_singleton s
  · simp only [dif_neg h]
    exact List.chain'_cons.mpr ⟨get_parent_id_length_lt s h, ancestors_chain (get_parent_id s)⟩
termination_by s.length
decreasing_by exact get_parent_id_length_lt s h

theorem ancestors_last (s : Str) (h : get_all_parent_ids s ≠ []) :
    ∃ r, (get_all_parent_ids s).getLast? = some r ∧ get_parent_id r = [] := by
  by_cases hp : get_parent_id s = []
  · rw [get_all_parent_ids] at h
    simp [dif_pos hp] at h
  · rw [get_all_parent_ids]
    simp only [dif_neg hp]
    by_cases h2 : get_all_parent_ids (get_parent_id s) = []
    · refine ⟨get_parent_id s, ?_, ?_⟩
      · rw [h2]
        rfl
      · rw [get_all_parent_ids] at h2
        by_cases h3 : get_parent_id (get_parent_id s) = []
        · exact h3
        · simp [dif_neg h3] at h2
    · obtain ⟨r, hr1, hr2⟩ := ancestors_last (get_parent_id s) h2
      exact ⟨r, by rw [getLastQ_cons_ne _ _ h2]; exact hr1, hr2⟩
termination_by s.length
decreasing_by exact get_parent_id_length_lt s hp

/--
C2: the ID validator `is_valid_node_id` is not equivalent to the spec's
grammar: after a hop character it rejects the next two characters only when
*both* are non-digits (Python `if not node_id[pos].isdigit() and not
node_id[pos+1].isdigit(): return False`, an `and` where the comment above it
— "Must follow letter with two digits" — and the docstring require both to
be digits), so it accepts `07a1b`, which the grammar rejects.  Evaluation of
the code at the failing input.
-/
theorem c2_validator_accepts_07a1b :
    is_valid_node_id "07a1b".data = true ∧ grammarValid "07a1b".data = false := by
  decide

/--
C5 counterexample: the claim quantifies over IDs that `validate` accepts,
but `is_valid_node_id` accepts `07a1b` (length > 2) whose derived parent
`07a1` it rejects, so "validate(parent_of(x)) is true" fails.
-/
theorem c5_counterexample :
    is_valid_node_id "07a1b".data = true ∧
    2 < "07a1b".data.length ∧
    is_valid_node_id (get_parent_id "07a1b".data) = false := by
  decide

/--
C5 (amended): for every ID `x` conforming to the grammar with more than two
characters, `parent_of(x)` conforms to the grammar; `all_ancestors(x)` is a
finite sequence of strictly decreasing length; it terminates with the
two-digit root, whose own parent is empty; and its length equals the number
of parent-derivation steps of `x`: the number of non-digit characters plus
the number of digit pairs after the two root digits (a hop that carries its
two digits contributes two steps, one for the digit pair and one for the hop
character).
-/
theorem c5_amended (x : Str) (hg : grammarValid x = true) (hl : 2 < x.length) :
    grammarValid (get_parent_id x) = true ∧
    List.Chain' (fun p q => q.length < p.length) (x :: get_all_parent_ids x) ∧
    (get_all_parent_ids x).length =
      ((x.drop 2).filter (fun c => !c.isDigit)).length +
        ((x.drop 2).filter (fun c => c.isDigit)).length / 2 ∧
    ∃ r, (get_all_parent_ids x).getLast? = some r ∧ get_parent_id r = [] := by
  match x with
  | c1 :: c2 :: rest =>
    simp only [grammarValid, Bool.and_eq_true] at hg
    obtain ⟨⟨h1, h2⟩, h3⟩ := hg
    have hgr : GoodRest rest := (goodRestB_iff rest).mp h3
    have hrne : rest ≠ [] := by
      intro hx
      subst hx
      simp at hl
    have hcons := get_parent_id_cons c1 c2 rest hrne
    obtain ⟨hg', _⟩ := goodRest_restParent hgr hrne
    refine ⟨?_, ancestors_chain _, ?_, ?_⟩
    · rw [hcons]
      simp only [grammarValid, Bool.and_eq_true]
      exact ⟨⟨h1, h2⟩, (goodRestB_iff _).mpr hg'⟩
    · rw [ancestors_weight c1 c2 rest hgr]
      rfl
    · apply ancestors_last
      rw [get_all_parent_ids]
      simp only [hcons]
      rw [dif_neg (by simp)]
      simp

theorem c5_witness :
    grammarValid (get_parent_id "01a01".data) = true ∧
    List.Chain' (fun p q => q.length < p.length)
      ("01a01".data :: get_all_parent_ids "01a01".data) ∧
    (get_all_parent_ids "01a01".data).length =
      (("01a01".data.drop 2).filter (fun c => !c.isDigit)).length +
        (("01a01".data.drop 2).filter (fun c => c.isDigit)).length / 2 ∧
    ∃ r, (get_all_parent_ids "01a01".data).getLast? = some r ∧ get_parent_id r = [] :=
  c5_amended "01a01".data (by decide) (by decide)

/--
C9: the two next-ID allocation algorithms in the source disagree.  For the
parent `01a` (which ends in a letter) with the single existing child id
`01a013`, the graph-node allocator `FileGraph.get_next_available_id` parses
the whole suffix `013` as the number 13 and returns `01a01`, while the
shared-utility allocator `get_next_available_child_id` looks only at the
two-character slice `01` and returns `01a02`.
-/
theorem c9_allocators_diverge :
    fg_get_next_available_id "01a".data ["01a013".data] = .ok "01a01".data ∧
    get_next_available_child_id "01a".data
      { all_nodes := ["P".data, "C".data],
        folgezettel_ids := [("P".data, "01a".data), ("C".data, "01a013".data)],
        names := [], paths := [], extensions := [],
        edges := [("P".data, ["C".data])], folder_nodes := [] }
      = .ok "01a02".data ∧
    ("01a01".data : Str) ≠ "01a02".data :=
  ⟨rfl, rfl, by decide⟩

theorem letters_not_digit : ∀ c ∈ lettersAZ, c.isDigit = false := by decide

theorem digitChar_isDigit {d : Nat} (h : d < 10) : (Nat.digitChar d).isDigit = true := by
  interval_cases d <;> decide

theorem lastIsDigitB_eq_getD (l : Str) (h : l ≠ []) :
    lastIsDigitB l = (l.getLast?.getD '0').isDigit := by
  simp only [lastIsDigitB]
  cases hgl : l.getLast? with
  | none => exact absurd (List.getLast?_eq_none_iff.mp hgl) h
  | some y => simp

theorem endsTwoNonDigit_cons (x : Char) (l : Str) (h : 2 ≤ l.length) :
    endsTwoNonDigit (x :: l) = endsTwoNonDigit l := by
  obtain ⟨y, z, r, hrev⟩ : ∃ y z r, l.reverse = y :: z :: r := by
    rcases hr : l.reverse with _ | ⟨y, t2⟩
    · exfalso
      have hc := congrArg List.length hr
      simp at hc
      simp [hc] at h
    · rcases t2 with _ | ⟨z, r⟩
      · exfalso
        have hc := congrArg List.length hr
        simp at hc
        omega
      · exact ⟨y, z, r, rfl⟩
  simp only [endsTwoNonDigit, List.reverse_cons, hrev, List.cons_append]

theorem goodRest_append_letter {c : Char} (hc : c.isDigit = false) :
    ∀ {l : Str}, GoodRest l → (l = [] ∨ lastIsDigitB l = true) → GoodRest (l ++ [c]) := by
  intro l h
  induction h with
  | nil =>
    intro _
    exact GoodRest.bare c (by simp [hc])
  | bare c' hc' =>
    rintro (h | h)
    · simp at h
    · rw [lastIsDigitB_singleton] at h
      exact absurd h (by simpa using hc')
  | barespec c' s hc' hs =>
    rintro (h | h)
    · simp at h
    · rw [lastIsDigitB_pair, special_not_digit s hs] at h
      exact absurd h (by simp)
  | hop c' d1 d2 l' hc' h1 h2 h3 ih =>
    rintro (h | h)
    · simp at h
    · have htail : GoodRest (l' ++ [c]) := by
        by_cases hl : l' = []
        · subst hl
          exact GoodRest.bare c (by simp [hc])
        · apply ih
          right
          rwa [lastIsDigitB_cons _ _ (by simp), lastIsDigitB_cons _ _ (by simp),
            lastIsDigitB_cons _ _ hl] at h
      simpa using GoodRest.hop c' d1 d2 (l' ++ [c]) hc' h1 h2 htail

theorem goodRest_append_digits {d1 d2 : Char} (h1 : d1.isDigit = true)
    (h2 : d2.isDigit = true) :
    ∀ {l : Str}, GoodRest l → l ≠ [] → lastIsDigitB l = false →
      endsTwoNonDigit l = false → GoodRest (l ++ [d1, d2]) := by
  intro l h
  induction h with
  | nil =>
    intro hne _ _
    exact absurd rfl hne
  | bare c hc =>
    intro _ _ _
    exact GoodRest.hop c d1 d2 [] hc h1 h2 GoodRest.nil
  | barespec c s hc hs =>
    intro _ _ hbad
    exfalso
    have hcd : c.isDigit = false := by simpa using hc
    have hsd := special_not_digit s hs
    simp [endsTwoNonDigit, hcd, hsd] at hbad
  | hop c d1' d2' l' hc h1' h2' h3 ih =>
    intro _ hlast hbad
    by_cases hl : l' = []
    · exfalso
      subst hl
      rw [lastIsDigitB_cons _ _ (by simp), lastIsDigitB_cons _ _ (by simp),
        lastIsDigitB_singleton] at hlast
      simp [h2'] at hlast
    · have hlast' : lastIsDigitB l' = false := by
        rwa [lastIsDigitB_cons _ _ (by simp), lastIsDigitB_cons _ _ (by simp),
          lastIsDigitB_cons _ _ hl] at hlast
      have hbad' : endsTwoNonDigit l' = false := by
        match l', hl with
        | [x], _ => simp [endsTwoNonDigit]
        | x :: y :: t, _ =>
          rwa [endsTwoNonDigit_cons _ _ (by simp),
            endsTwoNonDigit_cons _ _ (by simp),
            endsTwoNonDigit_cons _ _ (by simp)] at hbad
      have htail := ih hl hlast' hbad'
      simpa using GoodRest.hop c d1' d2' (l' ++ [d1, d2]) hc h1' h2' htail

/--
C4 counterexample: the parent `07a!` is valid under the grammar (a hop `a`
whose digits are replaced by the trailing special character `!`), ends in a
non-digit, and so receives numeric children: with no children used, the
allocator returns `07a!01`, which violates the grammar (and is also rejected
by `is_valid_node_id`), refuting "the returned ID is itself valid under the
grammar" for every valid parent.
-/
theorem c4_counterexample :
    grammarValid "07a!".data = true ∧
    get_next_available_child_id "07a!".data
      { all_nodes := ["P".data], folgezettel_ids := [("P".data, "07a!".data)],
        names := [], paths := [], extensions := [],
        edges := [], folder_nodes := [] }
      = .ok "07a!01".data ∧
    grammarValid "07a!01".data = false ∧
    is_valid_node_id "07a!01".data = false :=
  ⟨by decide, rfl, by decide, by decide⟩

/--
C4 (amended): for every parent ID `p` valid under the grammar whose final
two characters are not both non-digits (i.e. `p` does not end in a trailing
special character right after a bare hop character) and every set of
already-used direct-child IDs, the allocator core of
`get_next_available_child_id` returns an ID that is not a member of the used
set, is itself valid under the grammar, and has `p` as its derived parent;
if `p` ends in a digit it appends the first unused lowercase letter a-z and
otherwise the first unused two-digit decimal 01-99, raising the
allocation-exhausted error exactly when all 26 letters, respectively all 99
numbers, are already taken.
-/
theorem c4_amended (p : Str) (used : List Str)
    (hg : grammarValid p = true) (hbad : endsTwoNonDigit p = false) :
    (∀ r, nextChildIdFrom p (collectChildIds p used) = .ok r →
        used.contains r = false ∧ grammarValid r = true ∧ get_parent_id r = p) ∧
    ((p.getLast?.getD '0').isDigit = true →
      ((∃ e, nextChildIdFrom p (collectChildIds p used) = .error e) ↔
        ∀ c ∈ lettersAZ,
          (usedLetterChars p (collectChildIds p used)).contains c = true)) ∧
    ((p.getLast?.getD '0').isDigit = false →
      ((∃ e, nextChildIdFrom p (collectChildIds p used) = .error e) ↔
        ∀ n ∈ List.range' 1 99,
          (usedNumberStrs p (collectChildIds p used)).contains (pad2 n) = true)) := by
  match p, hg with
  | c1 :: c2 :: rest, hg =>
    simp only [grammarValid, Bool.and_eq_true] at hg
    obtain ⟨⟨hp1, hp2⟩, hp3⟩ := hg
    have hgr : GoodRest rest := (goodRestB_iff rest).mp hp3
    refine ⟨?_, ?_, ?_⟩
    · intro r hr
      unfold nextChildIdFrom at hr
      by_cases hd : (((c1 :: c2 :: rest : Str)).getLast?.getD '0').isDigit = true
      · rw [if_pos hd] at hr
        cases hfind : lettersAZ.find?
            (fun c => !(usedLetterChars (c1 :: c2 :: rest)
              (collectChildIds (c1 :: c2 :: rest) used)).contains c) with
        | none =>
          rw [hfind] at hr
          exact absurd hr (by simp)
        | some c =>
          rw [hfind] at hr
          have hreq : r = (c1 :: c2 :: rest) ++ [c] := by
            simpa [eq_comm] using hr
          have hcmem : c ∈ lettersAZ := List.mem_of_find?_eq_some hfind
          have hcfree := List.find?_some hfind
          simp only [Bool.not_eq_eq_eq_not, Bool.not_true] at hcfree
          have hcd := letters_not_digit c hcmem
          refine ⟨?_, ?_, ?_⟩
          · by_contra hcon
            rw [Bool.not_eq_false] at hcon
            have hmem : r ∈ used := by simpa using hcon
            have hkid : r ∈ collectChildIds (c1 :: c2 :: rest) used := by
              unfold collectChildIds
              rw [List.mem_filter]
              refine ⟨hmem, ?_⟩
              rw [List.isPrefixOf_iff_prefix, hreq]
              exact List.prefix_append _ _
            have hused : c ∈ usedLetterChars (c1 :: c2 :: rest)
                (collectChildIds (c1 :: c2 :: rest) used) := by
              apply List.mem_filterMap.mpr
              refine ⟨r, hkid, ?_⟩
              rw [hreq, List.drop_left]
              rfl
            have : (usedLetterChars (c1 :: c2 :: rest)
                (collectChildIds (c1 :: c2 :: rest) used)).contains c = true := by
              simpa using hused
            rw [this] at hcfree
            exact absurd hcfree (by simp)
          · rw [hreq]
            show grammarValid (c1 :: c2 :: (rest ++ [c])) = true
            simp only [grammarValid, Bool.and_eq_true]
            refine ⟨⟨hp1, hp2⟩, ?_⟩
            apply (goodRestB_iff _).mpr
            apply goodRest_append_letter hcd hgr
            match rest with
            | [] => exact Or.inl rfl
            | r0 :: rest' =>
              right
              rw [lastIsDigitB_eq_getD _ (by simp)]
              rw [getLastQ_cons_ne _ _ (by simp), getLastQ_cons_ne _ _ (by simp)] at hd
              exact hd
          · match rest with
            | [] =>
              rw [hreq]
              simp [get_parent_id]
            | r0 :: rest' =>
              have hlen1 : ¬ (r.length ≤ 2) := by
                rw [hreq]
                simp only [List.length_append, List.length_cons]
                omega
              have hlen3 : (r.length == 3) = false := by
                rw [hreq]
                simp only [List.length_append, List.length_cons, beq_eq_false_iff_ne]
                omega
              unfold get_parent_id
              rw [if_neg hlen1, hlen3]
              simp only [Bool.false_eq_true, if_false]
              rw [show r.getLast? = some c from by rw [hreq]; exact List.getLast?_concat _]
              simp only [Option.getD_some, hcd, Bool.not_false, if_true]
              rw [hreq, List.dropLast_concat]
      · rw [if_neg hd] at hr
        rw [Bool.not_eq_true] at hd
        cases hfind : (List.range' 1 99).find?
            (fun n => !(usedNumberStrs (c1 :: c2 :: rest)
              (collectChildIds (c1 :: c2 :: rest) used)).contains (pad2 n)) with
        | none =>
          rw [hfind] at hr
          exact absurd hr (by simp)
        | some n =>
          rw [hfind] at hr
          have hreq : r = (c1 :: c2 :: rest) ++ pad2 n := by
            simpa [eq_comm] using hr
          have hnmem : n ∈ List.range' 1 99 := List.mem_of_find?_eq_some hfind
          have hnb : 1 ≤ n ∧ n < 100 := by simpa using hnmem
          have hnfree := List.find?_some hfind
          simp only [Bool.not_eq_eq_eq_not, Bool.not_true] at hnfree
          have ha : (Nat.digitChar (n / 10)).isDigit = true :=
            digitChar_isDigit (by omega)
          have hb : (Nat.digitChar (n % 10)).isDigit = true :=
            digitChar_isDigit (by omega)
          have hrne : rest ≠ [] := by
            intro hx
            subst hx
            simp at hd
            rw [hd] at hp2
            exact absurd hp2 (by simp)
          refine ⟨?_, ?_, ?_⟩
          · by_contra hcon
            rw [Bool.not_eq_false] at hcon
            have hmem : r ∈ used := by simpa using hcon
            have hkid : r ∈ collectChildIds (c1 :: c2 :: rest) used := by
              unfold collectChildIds
              rw [List.mem_filter]
              refine ⟨hmem, ?_⟩
              rw [List.isPrefixOf_iff_prefix, hreq]
              exact List.prefix_append _ _
            have hused : pad2 n ∈ usedNumberStrs (c1 :: c2 :: rest)
                (collectChildIds (c1 :: c2 :: rest) used) := by
              apply List.mem_filterMap.mpr
              refine ⟨r, hkid, ?_⟩
              rw [hreq, List.drop_left]
              rfl
            have : (usedNumberStrs (c1 :: c2 :: rest)
                (collectChildIds (c1 :: c2 :: rest) used)).contains (pad2 n) = true := by
              simpa using hused
            rw [this] at hnfree
            exact absurd hnfree (by simp)
          · rw [hreq]
            show grammarValid (c1 :: c2 :: (rest ++ pad2 n)) = true
            simp only [grammarValid, Bool.and_eq_true]
            refine ⟨⟨hp1, hp2⟩, ?_⟩
            apply (goodRestB_iff _).mpr
            apply goodRest_append_digits ha hb hgr hrne
            · rw [lastIsDigitB_eq_getD _ hrne]
              rw [getLastQ_cons_ne _ _ (by simp), getLastQ_cons_ne _ _ hrne] at hd
              exact hd
            · match rest, hrne with
              | [x], _ => simp [endsTwoNonDigit]
              | x :: y :: t, _ =>
                rwa [endsTwoNonDigit_cons _ _ (by simp),
                  endsTwoNonDigit_cons _ _ (by simp)] at hbad
          · have hp2len : (pad2 n).length = 2 := rfl
            have hlen1 : ¬ (r.length ≤ 2) := by
              rw [hreq]
              simp only [List.length_append, List.length_cons, hp2len]
              omega
            have hrlen : r.length = rest.length + 4 := by
              rw [hreq]
              simp only [List.length_append, List.length_cons, hp2len]
            have hlen3 : (r.length == 3) = false := by
              rw [hrlen]
              simp only [beq_eq_false_iff_ne]
              have h0 : 0 < rest.length := List.length_pos.mpr hrne
              omega
            unfold get_parent_id
            rw [if_neg hlen1, hlen3]
            simp only [Bool.false_eq_true, if_false]
            have hsplit : r = ((c1 :: c2 :: rest) ++ [Nat.digitChar (n / 10)]) ++
                [Nat.digitChar (n % 10)] := by
              rw [hreq]
              simp [pad2]
            rw [show r.getLast? = some (Nat.digitChar (n % 10)) from by
              rw [hsplit]; exact List.getLast?_concat _]
            simp only [Option.getD_some, hb, Bool.not_true, Bool.false_eq_true, if_false]
            rw [show r.length - 2 = (c1 :: c2 :: rest : Str).length from by
              rw [hrlen]; simp only [List.length_cons]; omega]
            rw [hreq]
            exact List.take_left _ _
    · intro hd
      constructor
      · rintro ⟨e, he⟩
        unfold nextChildIdFrom at he
        rw [if_pos hd] at he
        cases hfind : lettersAZ.find?
            (fun c => !(usedLetterChars (c1 :: c2 :: rest)
              (collectChildIds (c1 :: c2 :: rest) used)).contains c) with
        | some c =>
          rw [hfind] at he
          exact absurd he (by simp)
        | none =>
          intro c hc
          have := List.find?_eq_none.mp hfind c hc
          simpa using this
      · intro hall
        refine ⟨"No available letter suffixes".data, ?_⟩
        unfold nextChildIdFrom
        rw [if_pos hd]
        have hnone : lettersAZ.find?
            (fun c => !(usedLetterChars (c1 :: c2 :: rest)
              (collectChildIds (c1 :: c2 :: rest) used)).contains c) = none :=
          List.find?_eq_none.mpr (fun x hx => by
            intro hpx
            rw [hall x hx] at hpx
            simp at hpx)
        rw [hnone]
    · intro hd
      constructor
      · rintro ⟨e, he⟩
        unfold nextChildIdFrom at he
        rw [if_neg (by rw [hd]; simp)] at he
        cases hfind : (List.range' 1 99).find?
            (fun n => !(usedNumberStrs (c1 :: c2 :: rest)
              (collectChildIds (c1 :: c2 :: rest) used)).contains (pad2 n)) with
        | some n =>
          rw [hfind] at he
          exact absurd he (by simp)
        | none =>
          intro n hn
          have := List.find?_eq_none.mp hfind n hn
          simpa using this
      · intro hall
        refine ⟨"No available number suffixes".data, ?_⟩
        unfold nextChildIdFrom
        rw [if_neg (by rw [hd]; simp)]
        have hnone : (List.range' 1 99).find?
            (fun n => !(usedNumberStrs (c1 :: c2 :: rest)
              (collectChildIds (c1 :: c2 :: rest) used)).contains (pad2 n)) = none :=
          List.find?_eq_none.mpr (fun x hx => by
            intro hpx
            rw [hall x hx] at hpx
            simp at hpx)
        rw [hnone]

theorem c4_witness :
    (∀ r, nextChildIdFrom "01a".data (collectChildIds "01a".data ["01a01".data]) = .ok r →
        (["01a01".data] : List Str).contains r = false ∧ grammarValid r = true ∧
          get_parent_id r = "01a".data) ∧
    (("01a".data.getLast?.getD '0').isDigit = true →
      ((∃ e, nextChildIdFrom "01a".data (collectChildIds "01a".data ["01a01".data]) = .error e) ↔
        ∀ c ∈ lettersAZ,
          (usedLetterChars "01a".data (collectChildIds "01a".data ["01a01".data])).contains c
            = true)) ∧
    (("01a".data.getLast?.getD '0').isDigit = false →
      ((∃ e, nextChildIdFrom "01a".data (collectChildIds "01a".data ["01a01".data]) = .error e) ↔
        ∀ n ∈ List.range' 1 99,
          (usedNumberStrs "01a".data (collectChildIds "01a".data ["01a01".data])).contains (pad2 n)
            = true)) :=
  c4_amended "01a".data ["01a01".data] (by decide) (by decide)

/--
C3 counterexample: moving the two existing children `A` (id `01a`) and `B`
(id `01b`) of the ID-bearing target `T` (id `01`) back into `T` in one
successful call allocates `01c` to `A` — freeing `01a` — and then `01a` to
`B`: the allocated sibling IDs `[01c, 01a]` are strictly distinct but *not*
sequentially increasing in the caller's input order.
-/
theorem c3_counterexample :
    (move_files_graph
        { all_nodes := ["T".data, "A".data, "B".data],
          folgezettel_ids :=
            [("T".data, "01".data), ("A".data, "01a".data), ("B".data, "01b".data)],
          names := [], paths := [("T".data, []), ("A".data, []), ("B".data, [])],
          extensions := [],
          edges := [("T".data, ["A".data, "B".data])], folder_nodes := [] }
        ["A".data, "B".data] "T".data).map (fun r => r.1)
      = some ["01c".data, "01a".data] ∧
    ¬ allocIncreasing "01".data ["01c".data, "01a".data] :=
  ⟨rfl, fun hch => absurd (List.chain'_cons.mp hch).1 (by decide)⟩

theorem bool_not_true {b : Bool} (h : ¬ b = true) : b = false := by
  cases b
  · rfl
  · exact absurd rfl h

theorem assocFind_nil {β : Type} (k : Str) : assocFind ([] : List (Str × β)) k = none := rfl

theorem assocFind_cons {β : Type} (kv : Str × β) (t : List (Str × β)) (k : Str) :
    assocFind (kv :: t) k = if kv.1 == k then some kv.2 else assocFind t k := by
  simp only [assocFind, List.find?_cons]
  by_cases h : kv.1 == k <;> simp [h]

theorem assocFind_of_any_false {β : Type} (l : List (Str × β)) (k : Str)
    (h : l.any (fun kv => kv.1 == k) = false) : assocFind l k = none := by
  simp only [assocFind, Option.map_eq_none']
  rw [List.find?_eq_none]
  intro kv hkv
  have := (List.any_eq_false.mp h) kv hkv
  simpa using this

theorem assocFind_map_of_ne {β : Type} (l : List (Str × β)) (k k' : Str) (v : β)
    (h : k' ≠ k) :
    assocFind (l.map (fun kv => if kv.1 == k then (k, v) else kv)) k' = assocFind l k' := by
  induction l with
  | nil => rfl
  | cons kv t ih =>
    have hkk' : (k == k') = false := by
      simp only [beq_eq_false_iff_ne]
      exact fun hx => h hx.symm
    by_cases h0 : kv.1 == k
    · have hk : kv.1 = k := by simpa using h0
      simp only [List.map_cons, h0, if_true]
      rw [assocFind_cons, assocFind_cons, hk]
      simp only [hkk', Bool.false_eq_true, if_false]
      exact ih
    · simp only [List.map_cons, h0, Bool.false_eq_true, if_false]
      rw [assocFind_cons, assocFind_cons]
      by_cases h3 : kv.1 == k'
      · simp [h3]
      · simp only [h3, Bool.false_eq_true, if_false]
        exact ih

theorem assocFind_map_self {β : Type} (l : List (Str × β)) (k : Str) (v : β)
    (hany : l.any (fun kv => kv.1 == k) = true) :
    assocFind (l.map (fun kv => if kv.1 == k then (k, v) else kv)) k = some v := by
  induction l with
  | nil => simp at hany
  | cons kv t ih =>
    by_cases h0 : kv.1 == k
    · simp only [List.map_cons, h0, if_true]
      rw [assocFind_cons]
      simp
    · simp only [List.map_cons, h0, Bool.false_eq_true, if_false]
      rw [assocFind_cons]
      simp only [h0, Bool.false_eq_true, if_false]
      apply ih
      simp only [List.any_cons, h0, Bool.false_or] at hany
      exact hany

theorem assocFind_append_single {β : Type} (l : List (Str × β)) (k k' : Str) (v : β) :
    assocFind (l ++ [(k, v)]) k' =
      match assocFind l k' with
      | some w => some w
      | none => if k == k' then some v else none := by
  induction l with
  | nil =>
    simp only [List.nil_append, assocFind_nil]
    rw [assocFind_cons]
    rfl
  | cons kv t ih =>
    simp only [List.cons_append]
    rw [assocFind_cons, assocFind_cons]
    by_cases h3 : kv.1 == k'
    · simp [h3]
    · simp only [h3, Bool.false_eq_true, if_false]
      exact ih

theorem assocFind_assocSet_self {β : Type} (l : List (Str × β)) (k : Str) (v : β) :
    assocFind (assocSet l k v) k = some v := by
  unfold assocSet
  by_cases hany : l.any (fun kv => kv.1 == k) = true
  · rw [if_pos hany]
    exact assocFind_map_self l k v hany
  · rw [if_neg hany]
    have hf : l.any (fun kv => kv.1 == k) = false := bool_not_true hany
    rw [assocFind_append_single, assocFind_of_any_false l k hf]
    simp

theorem assocFind_assocSet_ne {β : Type} (l : List (Str × β)) (k k' : Str) (v : β)
    (h : k' ≠ k) : assocFind (assocSet l k v) k' = assocFind l k' := by
  unfold assocSet
  by_cases hany : l.any (fun kv => kv.1 == k) = true
  · rw [if_pos hany]
    exact assocFind_map_of_ne l k k' v h
  · rw [if_neg hany, assocFind_append_single]
    have hkk' : (k == k') = false := by
      simp only [beq_eq_false_iff_ne]
      exact fun hx => h hx.symm
    cases hfind : assocFind l k' with
    | some w => simp
    | none => simp [hkk']

theorem mem_assocSet {β : Type} (l : List (Str × β)) (k : Str) (v : β) :
    ∀ kv ∈ assocSet l k v, kv ∈ l ∨ kv = (k, v) := by
  intro kv hkv
  unfold assocSet at hkv
  by_cases hany : l.any (fun kv => kv.1 == k)
  · rw [if_pos hany] at hkv
    obtain ⟨orig, horig, heq⟩ := List.mem_map.mp hkv
    by_cases h0 : orig.1 == k
    · right
      rw [← heq]
      simp [h0]
    · left
      rw [← heq]
      simpa [h0] using horig
  · rw [if_neg hany] at hkv
    rcases List.mem_append.mp hkv with h | h
    · exact Or.inl h
    · right
      simpa using h

theorem assocSet_keys {β : Type} (l : List (Str × β)) (k : Str) (v : β)
    (h : (l.map Prod.fst).Nodup) : ((assocSet l k v).map Prod.fst).Nodup := by
  unfold assocSet
  by_cases hany : l.any (fun kv => kv.1 == k)
  · rw [if_pos hany]
    have : (l.map (fun kv => if kv.1 == k then (k, v) else kv)).map Prod.fst
        = l.map Prod.fst := by
      rw [List.map_map]
      apply List.map_congr_left
      intro kv _
      by_cases h0 : kv.1 == k
      · simp only [Function.comp_apply, h0, if_true]
        exact (by simpa using h0 : kv.1 = k).symm
      · have h0' : kv.1 ≠ k := by simpa using h0
        simp [Function.comp_apply, h0']
    rw [this]
    exact h
  · rw [if_neg hany]
    rw [List.map_append]
    simp only [List.map_cons, List.map_nil]
    apply List.Nodup.append h (by simp)
    intro x hx hy
    simp only [List.mem_singleton] at hy
    subst hy
    obtain ⟨kv, hkv, hk⟩ := List.mem_map.mp hx
    have := List.any_eq_false.mp (bool_not_true hany) kv hkv
    exact this (by simp [hk])

theorem mem_usedLetterChars (p : Str) (ids : List Str) (c : Char) :
    c ∈ usedLetterChars p ids ↔ ∃ f ∈ ids, (f.drop p.length).head? = some c := by
  unfold usedLetterChars
  rw [List.mem_filterMap]

theorem mem_usedNumberStrs (p : Str) (ids : List Str) (t : Str) :
    t ∈ usedNumberStrs p ids ↔ ∃ f ∈ ids, (f.drop p.length).take 2 = t ∧ t.length = 2 := by
  unfold usedNumberStrs
  rw [List.mem_filterMap]
  constructor
  · rintro ⟨f, hf, heq⟩
    by_cases hl : (((f.drop p.length).take 2).length == 2) = true
    · rw [if_pos hl] at heq
      have ht : (f.drop p.length).take 2 = t := by simpa using heq
      refine ⟨f, hf, ht, ?_⟩
      rw [← ht]
      simpa using hl
    · rw [if_neg hl] at heq
      exact absurd heq (by simp)
  · rintro ⟨f, hf, heq, hlen⟩
    refine ⟨f, hf, ?_⟩
    rw [if_pos (by simp [heq, hlen])]
    rw [heq]

theorem mem_collectChildIds (p : Str) (L : List Str) (f : Str) :
    f ∈ collectChildIds p L ↔ f ∈ L ∧ p.isPrefixOf f = true := by
  unfold collectChildIds
  rw [List.mem_filter]

theorem get_stable_of_uniq (g : FileGraph) (tfid target : Str)
    (h1 : assocFind g.folgezettel_ids target = some tfid)
    (h2 : ∀ kv ∈ g.folgezettel_ids, kv.2 = tfid → kv.1 = target) :
    get_stable_id_from_folgezettel g tfid = some target := by
  unfold get_stable_id_from_folgezettel
  unfold assocFind at h1
  obtain ⟨kv0, hfind0, hval0⟩ := Option.map_eq_some'.mp h1
  have hkv0mem : kv0 ∈ g.folgezettel_ids := List.mem_of_find?_eq_some hfind0
  have hsome : (g.folgezettel_ids.find? (fun kv => kv.2 == tfid)).isSome := by
    rw [List.find?_isSome]
    exact ⟨kv0, hkv0mem, by simp [hval0]⟩
  obtain ⟨kv1, hkv1⟩ := Option.isSome_iff_exists.mp hsome
  have hkv1mem : kv1 ∈ g.folgezettel_ids := List.mem_of_find?_eq_some hkv1
  have hkv1val : kv1.2 = tfid := by simpa using List.find?_some hkv1
  rw [hkv1]
  simp [h2 kv1 hkv1mem hkv1val]

theorem fidsOfChildren_ok_mem (fids : List (Str × Str)) :
    ∀ (cs : List Str) (L : List Str), fidsOfChildren fids cs = .ok L →
      ∀ f, f ∈ L ↔ ∃ c ∈ cs, assocFind fids c = some f := by
  intro cs
  induction cs with
  | nil =>
    intro L hL f
    have : L = [] := by
      simpa [fidsOfChildren, eq_comm] using hL
    subst this
    simp
  | cons c cs ih =>
    intro L hL f
    unfold fidsOfChildren at hL
    cases hfc : assocFind fids c with
    | none =>
      rw [hfc] at hL
      exact absurd hL (by simp)
    | some v =>
      rw [hfc] at hL
      cases hrest : fidsOfChildren fids cs with
      | error e =>
        rw [hrest] at hL
        exact absurd hL (by simp)
      | ok rest =>
        rw [hrest] at hL
        have hLeq : L = v :: rest := by simpa [eq_comm] using hL
        subst hLeq
        rw [List.mem_cons]
        constructor
        · rintro (rfl | hfr)
          · exact ⟨c, List.mem_cons_self _ _, hfc⟩
          · obtain ⟨d, hd, hdf⟩ := (ih rest hrest f).mp hfr
            exact ⟨d, List.mem_cons_of_mem _ hd, hdf⟩
        · rintro ⟨d, hd, hdf⟩
          rcases List.mem_cons.mp hd with rfl | hd'
          · left
            rw [hfc] at hdf
            simpa [eq_comm] using hdf
          · right
            exact (ih rest hrest f).mpr ⟨d, hd', hdf⟩

theorem assocFind_mapErase (E : List (Str × List Str)) (pid : Str) (s t : Str) :
    assocFind (E.map (fun pc => if pc.1 == pid then (pc.1, pc.2.erase s) else pc)) t
      = (assocFind E t).map (fun v => if t == pid then v.erase s else v) := by
  induction E with
  | nil => rfl
  | cons kv tl ih =>
    by_cases h0 : (kv.1 == pid) = true
    · have hk : kv.1 = pid := by simpa using h0
      simp only [List.map_cons, h0, if_true]
      rw [assocFind_cons, assocFind_cons]
      by_cases h1 : (kv.1 == t) = true
      · have ht : (t == pid) = true := by
          have hx : kv.1 = t := by simpa using h1
          simp [← hx, hk]
        simp [h1, ht]
      · simp only [h1, Bool.false_eq_true, if_false]
        exact ih
    · simp only [List.map_cons, h0, Bool.false_eq_true, if_false]
      rw [assocFind_cons, assocFind_cons]
      by_cases h1 : (kv.1 == t) = true
      · have ht : (t == pid) = false := by
          have h1x : kv.1 = t := by simpa using h1
          have h0x : kv.1 ≠ pid := by simpa using h0
          rw [beq_eq_false_iff_ne]
          rw [← h1x]
          exact h0x
        simp [h1, ht]
      · simp only [h1, Bool.false_eq_true, if_false]
        exact ih

theorem assocFind_mapAdd (E : List (Str × List Str)) (p : Str) (c : Str)
    (hany : E.any (fun pc => pc.1 == p) = true) :
    ∃ v, assocFind E p = some v ∧
      assocFind (E.map (fun pc =>
          if pc.1 == p then (pc.1, if pc.2.contains c then pc.2 else pc.2 ++ [c]) else pc)) p
        = some (if v.contains c then v else v ++ [c]) := by
  induction E with
  | nil => simp at hany
  | cons kv tl ih =>
    by_cases h0 : (kv.1 == p) = true
    · refine ⟨kv.2, ?_, ?_⟩
      · rw [assocFind_cons, if_pos h0]
      · simp only [List.map_cons, h0, if_true]
        rw [assocFind_cons]
        simp [h0]
    · simp only [List.any_cons, h0, Bool.false_or] at hany
      obtain ⟨v, hv1, hv2⟩ := ih hany
      refine ⟨v, ?_, ?_⟩
      · rw [assocFind_cons, if_neg (by simp_all)]
        exact hv1
      · simp only [List.map_cons, h0, Bool.false_eq_true, if_false]
        rw [assocFind_cons, if_neg (by simp_all)]
        exact hv2

theorem children_addChild_self (E : List (Str × List Str)) (p c : Str) :
    c ∈ (assocFind (edgesAddChild E p c) p).getD [] := by
  unfold edgesAddChild
  by_cases hany : E.any (fun pc => pc.1 == p) = true
  · rw [if_pos hany]
    obtain ⟨v, _, hv2⟩ := assocFind_mapAdd E p c hany
    rw [hv2]
    by_cases hc : v.contains c = true
    · simp only [hc, if_true, Option.getD_some]
      simpa using hc
    · rw [bool_not_true hc]
      simp
  · rw [if_neg hany]
    have hf : E.any (fun pc => pc.1 == p) = false := bool_not_true hany
    rw [assocFind_append_single, assocFind_of_any_false E p hf]
    simp

theorem children_addChild_mem (E : List (Str × List Str)) (p c x : Str)
    (hx : x ∈ (assocFind E p).getD []) :
    x ∈ (assocFind (edgesAddChild E p c) p).getD [] := by
  unfold edgesAddChild
  by_cases hany : E.any (fun pc => pc.1 == p) = true
  · rw [if_pos hany]
    obtain ⟨v, hv1, hv2⟩ := assocFind_mapAdd E p c hany
    rw [hv1] at hx
    simp only [Option.getD_some] at hx
    rw [hv2]
    simp only [Option.getD_some]
    by_cases hc : v.contains c = true
    · rw [if_pos hc]
      exact hx
    · rw [bool_not_true hc]
      simp only [Bool.false_eq_true, if_false]
      exact List.mem_append_left _ hx
  · rw [if_neg hany]
    have hf : E.any (fun pc => pc.1 == p) = false := bool_not_true hany
    rw [assocFind_of_any_false E p hf] at hx
    simp at hx

theorem moveEdges_fids (g : FileGraph) (s t : Str) :
    (moveEdges g s t).folgezettel_ids = g.folgezettel_ids := by
  unfold moveEdges
  cases g.edges.find? (fun pc => pc.2.contains s) <;> rfl

theorem children_moveEdges_self (g : FileGraph) (s t : Str) :
    s ∈ childrenOf (moveEdges g s t) t := by
  unfold moveEdges childrenOf
  cases hfp : g.edges.find? (fun pc => pc.2.contains s) with
  | none =>
    simp only [hfp, Option.map_none']
    exact children_addChild_self g.edges t s
  | some pc0 =>
    simp only [hfp, Option.map_some']
    exact children_addChild_self _ t s

theorem children_moveEdges_mem (g : FileGraph) (s t c : Str)
    (hc : c ∈ childrenOf g t) (hne : c ≠ s) :
    c ∈ childrenOf (moveEdges g s t) t := by
  unfold moveEdges childrenOf
  unfold childrenOf at hc
  cases hfp : g.edges.find? (fun pc => pc.2.contains s) with
  | none =>
    simp only [hfp, Option.map_none']
    exact children_addChild_mem g.edges t s c hc
  | some pc0 =>
    simp only [hfp, Option.map_some']
    apply children_addChild_mem _ t s c
    rw [assocFind_mapErase]
    cases hat : assocFind g.edges t with
    | none =>
      rw [hat] at hc
      simp at hc
    | some v =>
      rw [hat] at hc
      simp only [Option.getD_some] at hc
      simp only [Option.map_some', Option.getD_some]
      by_cases htp : (t == pc0.1) = true
      · rw [if_pos htp]
        exact (List.mem_erase_of_ne hne).mpr hc
      · rw [if_neg htp]
        exact hc

theorem find_free_before {α : Type} (rk : α → Nat) (pred : α → Bool) :
    ∀ (C : List α), C.Pairwise (fun x y => rk x < rk y) →
      ∀ a, C.find? (fun c => !pred c) = some a →
      ∀ x ∈ C, rk x < rk a → pred x = true := by
  intro C
  induction C with
  | nil =>
    intro _ a ha
    simp at ha
  | cons c0 tl ih =>
    intro hpw a ha x hx hrk
    by_cases h0 : pred c0 = true
    · rw [List.find?_cons_of_neg _ (by simp [h0])] at ha
      rcases List.mem_cons.mp hx with rfl | hx'
      · exact h0
      · exact ih (List.Pairwise.of_cons hpw) a ha x hx' hrk
    · rw [List.find?_cons_of_pos _ (by simp [bool_not_true h0])] at ha
      have haeq : c0 = a := by simpa using ha
      subst haeq
      rcases List.mem_cons.mp hx with rfl | hx'
      · exact absurd hrk (Nat.lt_irrefl _)
      · have := (List.pairwise_cons.mp hpw).1 x hx'
        omega

theorem pairwise_total {α : Type} {R : α → α → Prop} :
    ∀ {l : List α}, l.Pairwise R → ∀ x ∈ l, ∀ y ∈ l, x = y ∨ R x y ∨ R y x := by
  intro l hl
  induction hl with
  | nil =>
    intro x hx
    simp at hx
  | cons hhead _ ih =>
    intro x hx y hy
    rcases List.mem_cons.mp hx with rfl | hx' <;> rcases List.mem_cons.mp hy with rfl | hy'
    · exact Or.inl rfl
    · exact Or.inr (Or.inl (hhead y hy'))
    · exact Or.inr (Or.inr (hhead x hx'))
    · exact ih x hx' y hy'

/--
Generic specification of the per-source loop of `move_files`: given the scan
list `C` of the allocator branch selected by `tfid`, with `sfx` the appended
suffix and `tokFits x f` the "child fid `f` occupies candidate `x`" relation,
a successful run over `sources` allocates one child ID per source, each of
the form `tfid ++ sfx a` with `a ∈ C`, with strictly increasing suffix ranks
in input order (each allocation is made against the target's children as
already updated by the earlier sources).
-/
theorem move_go_spec {α : Type} (sfx : α → Str) (tokFits : α → Str → Prop)
    (C : List α) (tfid tpath target : Str)
    (htfid : tfid ≠ [])
    (hC : C.Pairwise (fun x y => suffRank (sfx x) < suffRank (sfx y)))
    (Hfits : ∀ a ∈ C, tokFits a (tfid ++ sfx a))
    (Hsfx : ∀ a ∈ C, sfx a ≠ [])
    (Hstep : ∀ (L : List Str) (r : Str),
        nextChildIdFrom tfid (collectChildIds tfid L) = .ok r →
        ∃ a, a ∈ C ∧ r = tfid ++ sfx a ∧
          (∀ x ∈ C, suffRank (sfx x) < suffRank (sfx a) →
            ∃ f, f ∈ L ∧ tfid.isPrefixOf f = true ∧ tokFits x f) ∧
          ¬ ∃ f, f ∈ L ∧ tfid.isPrefixOf f = true ∧ tokFits a f) :
    ∀ (sources : List Str) (g : FileGraph) (acc : List Str) (B : Nat)
      (out : List Str × FileGraph),
      sources.Nodup → target ∉ sources →
      assocFind g.folgezettel_ids target = some tfid →
      (∀ kv ∈ g.folgezettel_ids, kv.2 = tfid → kv.1 = target) →
      (∀ u ∈ sources, ∀ f, assocFind g.folgezettel_ids u = some f →
        tfid.isPrefixOf f = false) →
      (∀ x ∈ C, suffRank (sfx x) ≤ B →
        ∀ L, childFidsOf g target = .ok L →
          ∃ f, f ∈ L ∧ tfid.isPrefixOf f = true ∧ tokFits x f) →
      move_files_go g tfid tpath target sources acc = some out →
      ∃ toks : List α,
        out.1 = acc.reverse ++ toks.map (fun a => tfid ++ sfx a) ∧
        toks.length = sources.length ∧
        (∀ a ∈ toks, a ∈ C) ∧
        List.Chain' (fun a b => suffRank (sfx a) < suffRank (sfx b)) toks ∧
        (∀ a, toks.head? = some a → B < suffRank (sfx a)) := by
  intro sources
  induction sources with
  | nil =>
    intro g acc B out _ _ _ _ _ _ hrun
    simp only [move_files_go] at hrun
    have hout : out = (acc.reverse, g) := (Option.some.inj hrun).symm
    refine ⟨[], by rw [hout]; simp, rfl, by simp, List.chain'_nil, by simp⟩
  | cons s rest ih =>
    intro g acc B out hnd htns h1 h2 hsrc hB hrun
    simp only [move_files_go] at hrun
    by_cases hcont : g.all_nodes.contains s = true
    · rw [if_neg (not_not_intro hcont), if_pos htfid] at hrun
      simp only [h1] at hrun
      have hstable := get_stable_of_uniq g tfid target h1 h2
      cases hcf : childFidsOf g target with
      | error e =>
        have hge : get_next_available_child_id tfid g = .error e := by
          simp only [get_next_available_child_id, hstable, hcf]
        simp only [hge] at hrun
        exact absurd hrun (by simp)
      | ok L =>
        cases halloc : nextChildIdFrom tfid (collectChildIds tfid L) with
        | error e =>
          have hge : get_next_available_child_id tfid g = .error e := by
            simp only [get_next_available_child_id, hstable, hcf]
            exact halloc
          simp only [hge] at hrun
          exact absurd hrun (by simp)
        | ok r =>
          have hge : get_next_available_child_id tfid g = .ok r := by
            simp only [get_next_available_child_id, hstable, hcf]
            exact halloc
          simp only [hge] at hrun
          obtain ⟨a, haC, hreq, hlow, hfree⟩ := Hstep L r halloc
          have hrne : r ≠ [] := by
            rw [hreq]
            intro hx
            exact htfid (List.append_eq_nil.mp hx).1
          rw [if_pos hrne] at hrun
          have hst : s ≠ target := by
            rintro rfl
            exact htns (List.mem_cons_self _ _)
          have hsnotin : s ∉ rest := (List.nodup_cons.mp hnd).1
          have h1g3 : assocFind (moveEdges { g with
              folgezettel_ids := assocSet g.folgezettel_ids s r,
              paths := assocSet g.paths s tpath } s target).folgezettel_ids target
              = some tfid := by
            rw [moveEdges_fids]
            show assocFind (assocSet g.folgezettel_ids s r) target = some tfid
            rw [assocFind_assocSet_ne _ _ _ _ (Ne.symm hst)]
            exact h1
          have h2g3 : ∀ kv ∈ (moveEdges { g with
              folgezettel_ids := assocSet g.folgezettel_ids s r,
              paths := assocSet g.paths s tpath } s target).folgezettel_ids,
              kv.2 = tfid → kv.1 = target := by
            intro kv hkv hv
            rw [moveEdges_fids] at hkv
            rcases mem_assocSet _ _ _ kv hkv with hold | hnew
            · exact h2 kv hold hv
            · exfalso
              apply Hsfx a haC
              rw [hnew] at hv
              simp only at hv
              rw [hreq] at hv
              have hlen := congrArg List.length hv
              rw [List.length_append] at hlen
              exact List.eq_nil_of_length_eq_zero (by omega)
          have hsrcg3 : ∀ u ∈ rest, ∀ f,
              assocFind (moveEdges { g with
                folgezettel_ids := assocSet g.folgezettel_ids s r,
                paths := assocSet g.paths s tpath } s target).folgezettel_ids u = some f →
              tfid.isPrefixOf f = false := by
            intro u hu f hf
            rw [moveEdges_fids] at hf
            have hus : u ≠ s := fun h => hsnotin (h ▸ hu)
            rw [assocFind_assocSet_ne _ _ _ _ hus] at hf
            exact hsrc u (List.mem_cons_of_mem _ hu) f hf
          have hBg3 : ∀ x ∈ C, suffRank (sfx x) ≤ suffRank (sfx a) →
              ∀ L3, childFidsOf (moveEdges { g with
                folgezettel_ids := assocSet g.folgezettel_ids s r,
                paths := assocSet g.paths s tpath } s target) target = .ok L3 →
              ∃ f, f ∈ L3 ∧ tfid.isPrefixOf f = true ∧ tokFits x f := by
            intro x hx hle L3 hL3
            have hchar3 := fidsOfChildren_ok_mem
              (moveEdges { g with
                folgezettel_ids := assocSet g.folgezettel_ids s r,
                paths := assocSet g.paths s tpath } s target).folgezettel_ids
              (childrenOf (moveEdges { g with
                folgezettel_ids := assocSet g.folgezettel_ids s r,
                paths := assocSet g.paths s tpath } s target) target) L3 hL3
            rcases Nat.lt_or_ge (suffRank (sfx x)) (suffRank (sfx a)) with hlt | hge2
            · obtain ⟨f, hfL, hpre, hfit⟩ := hlow x hx hlt
              have hchar := fidsOfChildren_ok_mem g.folgezettel_ids
                (childrenOf g target) L hcf
              obtain ⟨c, hcmem, hcfind⟩ := (hchar f).mp hfL
              have hcs : c ≠ s := by
                rintro rfl
                have hfalse := hsrc c (List.mem_cons_self _ _) f hcfind
                rw [hfalse] at hpre
                exact absurd hpre (by simp)
              have hc3 : c ∈ childrenOf (moveEdges { g with
                  folgezettel_ids := assocSet g.folgezettel_ids s r,
                  paths := assocSet g.paths s tpath } s target) target := by
                apply children_moveEdges_mem _ s target c _ hcs
                exact hcmem
              have hf3 : assocFind (moveEdges { g with
                  folgezettel_ids := assocSet g.folgezettel_ids s r,
                  paths := assocSet g.paths s tpath } s target).folgezettel_ids c
                  = some f := by
                rw [moveEdges_fids]
                show assocFind (assocSet g.folgezettel_ids s r) c = some f
                rw [assocFind_assocSet_ne _ _ _ _ hcs]
                exact hcfind
              exact ⟨f, (hchar3 f).mpr ⟨c, hc3, hf3⟩, hpre, hfit⟩
            · have heq2 : suffRank (sfx x) = suffRank (sfx a) :=
                Nat.le_antisymm hle hge2
              have hxa : x = a := by
                rcases pairwise_total hC x hx a haC with h | h | h
                · exact h
                · omega
                · omega
              have hs3 : s ∈ childrenOf (moveEdges { g with
                  folgezettel_ids := assocSet g.folgezettel_ids s r,
                  paths := assocSet g.paths s tpath } s target) target :=
                children_moveEdges_self _ s target
              have hfr : assocFind (moveEdges { g with
                  folgezettel_ids := assocSet g.folgezettel_ids s r,
                  paths := assocSet g.paths s tpath } s target).folgezettel_ids s
                  = some r := by
                rw [moveEdges_fids]
                show assocFind (assocSet g.folgezettel_ids s r) s = some r
                exact assocFind_assocSet_self _ _ _
              refine ⟨r, (hchar3 r).mpr ⟨s, hs3, hfr⟩, ?_, ?_⟩
              · rw [hreq, List.isPrefixOf_iff_prefix]
                exact List.prefix_append _ _
              · rw [hxa, hreq]
                exact Hfits a haC
          obtain ⟨toks, hout, hlen, hmem, hchain, hhead⟩ :=
            ih _ (r :: acc) (suffRank (sfx a)) out
              (List.nodup_cons.mp hnd).2
              (fun h => htns (List.mem_cons_of_mem _ h))
              h1g3 h2g3 hsrcg3 hBg3 hrun
          refine ⟨a :: toks, ?_, ?_, ?_, ?_, ?_⟩
          · rw [hout]
            simp only [List.reverse_cons, List.map_cons, ← hreq]
            simp [List.append_assoc]
          · simp [hlen]
          · intro b hb
            rcases List.mem_cons.mp hb with rfl | hb'
            · exact haC
            · exact hmem b hb'
          · rw [List.chain'_cons']
            exact ⟨fun y hy => hhead y (Option.mem_def.mp hy), hchain⟩
          · intro b hb
            have hba : b = a := Eq.symm (by simpa using hb)
            subst hba
            by_contra hcon
            exact hfree (hB b haC (Nat.not_lt.mp hcon) L hcf)
    · rw [if_pos hcont] at hrun
      exact absurd hrun (by simp)

theorem letters_step (tfid : Str) (hd : (tfid.getLast?.getD '0').isDigit = true) :
    ∀ (L : List Str) (r : Str),
      nextChildIdFrom tfid (collectChildIds tfid L) = .ok r →
      ∃ a, a ∈ lettersAZ ∧ r = tfid ++ [a] ∧
        (∀ x ∈ lettersAZ, suffRank [x] < suffRank [a] →
          ∃ f, f ∈ L ∧ tfid.isPrefixOf f = true ∧ (f.drop tfid.length).head? = some x) ∧
        ¬ ∃ f, f ∈ L ∧ tfid.isPrefixOf f = true ∧ (f.drop tfid.length).head? = some a := by
  intro L r hok
  unfold nextChildIdFrom at hok
  rw [if_pos hd] at hok
  cases hfind : lettersAZ.find?
      (fun c => !(usedLetterChars tfid (collectChildIds tfid L)).contains c) with
  | none =>
    rw [hfind] at hok
    exact absurd hok (by simp)
  | some c =>
    rw [hfind] at hok
    have hreq : r = tfid ++ [c] := by simpa [eq_comm] using hok
    have hcmem : c ∈ lettersAZ := List.mem_of_find?_eq_some hfind
    have hcfree := List.find?_some hfind
    simp only [Bool.not_eq_eq_eq_not, Bool.not_true] at hcfree
    refine ⟨c, hcmem, hreq, ?_, ?_⟩
    · intro x hx hrk
      have hrkn : x.toNat < c.toNat := by
        simpa [suffRank, List.foldl] using hrk
      have hpw : lettersAZ.Pairwise (fun x y => x.toNat < y.toNat) := by decide
      have hcontains := find_free_before (fun ch => ch.toNat)
        (fun ch => (usedLetterChars tfid (collectChildIds tfid L)).contains ch)
        lettersAZ hpw c hfind x hx hrkn
      have hmem : x ∈ usedLetterChars tfid (collectChildIds tfid L) := by
        simpa using hcontains
      obtain ⟨f, hf, hfhead⟩ := (mem_usedLetterChars _ _ _).mp hmem
      obtain ⟨hfL, hfpre⟩ := (mem_collectChildIds _ _ _).mp hf
      exact ⟨f, hfL, hfpre, hfhead⟩
    · rintro ⟨f, hfL, hfpre, hfhead⟩
      have hmem : c ∈ usedLetterChars tfid (collectChildIds tfid L) :=
        (mem_usedLetterChars _ _ _).mpr
          ⟨f, (mem_collectChildIds _ _ _).mpr ⟨hfL, hfpre⟩, hfhead⟩
      have hcc : (usedLetterChars tfid (collectChildIds tfid L)).contains c = true := by
        simpa using hmem
      rw [hcc] at hcfree
      exact absurd hcfree (by simp)

theorem pad2_rank (n : Nat) (h2 : n < 100) :
    suffRank (pad2 n) = (48 + n / 10) * 256 + (48 + n % 10) := by
  have hdc : ∀ d, d < 10 → (Nat.digitChar d).toNat = 48 + d := by decide
  show (0 * 256 + (Nat.digitChar (n / 10)).toNat) * 256 + (Nat.digitChar (n % 10)).toNat = _
  rw [hdc (n / 10) (by omega), hdc (n % 10) (by omega)]
  omega

theorem pad2_rank_pairwise :
    (List.range' 1 99).Pairwise (fun x y => suffRank (pad2 x) < suffRank (pad2 y)) := by
  refine List.Pairwise.imp_of_mem ?_ (List.pairwise_lt_range' 1 99)
  intro a b ha hb hab
  have hA := List.mem_range'_1.mp ha
  have hB := List.mem_range'_1.mp hb
  rw [pad2_rank a (by omega), pad2_rank b (by omega)]
  omega

theorem numbers_step (tfid : Str) (hd : (tfid.getLast?.getD '0').isDigit = false) :
    ∀ (L : List Str) (r : Str),
      nextChildIdFrom tfid (collectChildIds tfid L) = .ok r →
      ∃ a, a ∈ List.range' 1 99 ∧ r = tfid ++ pad2 a ∧
        (∀ x ∈ List.range' 1 99, suffRank (pad2 x) < suffRank (pad2 a) →
          ∃ f, f ∈ L ∧ tfid.isPrefixOf f = true ∧ (f.drop tfid.length).take 2 = pad2 x) ∧
        ¬ ∃ f, f ∈ L ∧ tfid.isPrefixOf f = true ∧ (f.drop tfid.length).take 2 = pad2 a := by
  intro L r hok
  unfold nextChildIdFrom at hok
  rw [if_neg (by rw [hd]; simp)] at hok
  cases hfind : (List.range' 1 99).find?
      (fun n => !(usedNumberStrs tfid (collectChildIds tfid L)).contains (pad2 n)) with
  | none =>
    rw [hfind] at hok
    exact absurd hok (by simp)
  | some n =>
    rw [hfind] at hok
    have hreq : r = tfid ++ pad2 n := by simpa [eq_comm] using hok
    have hnmem : n ∈ List.range' 1 99 := List.mem_of_find?_eq_some hfind
    have hnfree := List.find?_some hfind
    simp only [Bool.not_eq_eq_eq_not, Bool.not_true] at hnfree
    refine ⟨n, hnmem, hreq, ?_, ?_⟩
    · intro x hx hrk
      have hcontains := find_free_before (fun m => suffRank (pad2 m))
        (fun m => (usedNumberStrs tfid (collectChildIds tfid L)).contains (pad2 m))
        (List.range' 1 99) pad2_rank_pairwise n hfind x hx hrk
      have hmem : pad2 x ∈ usedNumberStrs tfid (collectChildIds tfid L) := by
        simpa using hcontains
      obtain ⟨f, hf, hft, _⟩ := (mem_usedNumberStrs _ _ _).mp hmem
      obtain ⟨hfL, hfpre⟩ := (mem_collectChildIds _ _ _).mp hf
      exact ⟨f, hfL, hfpre, hft⟩
    · rintro ⟨f, hfL, hfpre, hft⟩
      have hmem : pad2 n ∈ usedNumberStrs tfid (collectChildIds tfid L) :=
        (mem_usedNumberStrs _ _ _).mpr
          ⟨f, (mem_collectChildIds _ _ _).mpr ⟨hfL, hfpre⟩, hft, rfl⟩
      have hcc : (usedNumberStrs tfid (collectChildIds tfid L)).contains (pad2 n) = true := by
        simpa using hmem
      rw [hcc] at hnfree
      exact absurd hnfree (by simp)

/--
C3 (amended): for every *successful* `move_files` call moving `sources` into
an ID-bearing target whose folgezettel id `tfid` is held by the target alone,
with pairwise-distinct sources not including the target and no source
currently carrying a child id of the target (no source fid has `tfid` as a
prefix), the call returns exactly one allocated child ID per source, and
these IDs are strictly distinct, all of the form `tfid ++ suffix` with
nonempty suffix, and strictly increasing (by allocator scan order of the
suffix) in the caller's input order.  Without the no-source-under-target
hypothesis the increasing-order conclusion fails (counterexample
`c3_counterexample`).
-/
theorem c3_amended (g : FileGraph) (sources : List Str) (target tfid : Str)
    (ids : List Str)
    (h0 : tfid ≠ [])
    (h1 : sources.Nodup)
    (h2 : target ∉ sources)
    (h3 : assocFind g.folgezettel_ids target = some tfid)
    (h4 : ∀ kv ∈ g.folgezettel_ids, kv.2 = tfid → kv.1 = target)
    (h5 : ∀ u ∈ sources, tfid.isPrefixOf ((assocFind g.folgezettel_ids u).getD []) = false)
    (h6 : (move_files_graph g sources target).map (fun out => out.1) = some ids) :
    ids.length = sources.length ∧ ids.Nodup ∧ allocIncreasing tfid ids ∧
      ∀ i ∈ ids, ∃ t, t ≠ [] ∧ i = tfid ++ t := by
  obtain ⟨out, hout, houtid⟩ := Option.map_eq_some'.mp h6
  unfold move_files_graph at hout
  by_cases hcont : g.all_nodes.contains target = true
  · rw [if_neg (not_not_intro hcont)] at hout
    cases hpath : assocFind g.paths target with
    | none =>
      simp only [hpath] at hout
      exact absurd hout (by simp)
    | some tpath =>
      simp only [hpath, h3, Option.getD_some] at hout
      have hsrc : ∀ u ∈ sources, ∀ f, assocFind g.folgezettel_ids u = some f →
          tfid.isPrefixOf f = false := by
        intro u hu f hf
        have hx := h5 u hu
        rw [hf] at hx
        simpa using hx
      by_cases hd : (tfid.getLast?.getD '0').isDigit = true
      · have hB0 : ∀ x ∈ lettersAZ, suffRank [x] ≤ 0 →
            ∀ L, childFidsOf g target = .ok L →
            ∃ f, f ∈ L ∧ tfid.isPrefixOf f = true ∧ (f.drop tfid.length).head? = some x := by
          intro x hx hle
          exfalso
          have hpos : ∀ c ∈ lettersAZ, 0 < suffRank [c] := by decide
          have := hpos x hx
          omega
        obtain ⟨toks, htout, htlen, htmem, htchain, _⟩ :=
          move_go_spec (fun c => [c])
            (fun c f => (f.drop tfid.length).head? = some c)
            lettersAZ tfid tpath target h0
            (by decide)
            (fun a _ => by
              show ((tfid ++ [a]).drop tfid.length).head? = some a
              rw [List.drop_left]
              rfl)
            (fun a _ => by simp)
            (letters_step tfid hd)
            sources g [] 0 out h1 h2 h3 h4 hsrc hB0 hout
        have hids : ids = toks.map (fun a => tfid ++ [a]) := by
          rw [← houtid, htout]
          simp
        have htnodup : toks.Nodup := by
          haveI : IsTrans Char (fun a b => suffRank [a] < suffRank [b]) :=
            ⟨fun _ _ _ => Nat.lt_trans⟩
          have hpw := List.chain'_iff_pairwise.mp htchain
          exact hpw.imp (fun hab => by
            rintro rfl
            exact absurd hab (Nat.lt_irrefl _))
        refine ⟨?_, ?_, ?_, ?_⟩
        · rw [hids, List.length_map, htlen]
        · rw [hids]
          apply List.Nodup.map _ htnodup
          intro a b hab
          have := List.append_cancel_left hab
          simpa using this
        · rw [hids]
          unfold allocIncreasing
          rw [List.chain'_map]
          exact htchain.imp (fun a b hab => by
            rw [List.drop_left, List.drop_left]
            exact hab)
        · intro i hi
          rw [hids] at hi
          obtain ⟨a, _, rfl⟩ := List.mem_map.mp hi
          exact ⟨[a], by simp, rfl⟩
      · have hd' : (tfid.getLast?.getD '0').isDigit = false := bool_not_true hd
        have hB0 : ∀ x ∈ List.range' 1 99, suffRank (pad2 x) ≤ 0 →
            ∀ L, childFidsOf g target = .ok L →
            ∃ f, f ∈ L ∧ tfid.isPrefixOf f = true ∧ (f.drop tfid.length).take 2 = pad2 x := by
          intro x hx hle
          exfalso
          have hxb := List.mem_range'_1.mp hx
          rw [pad2_rank x (by omega)] at hle
          omega
        obtain ⟨toks, htout, htlen, htmem, htchain, _⟩ :=
          move_go_spec (fun n => pad2 n)
            (fun n f => (f.drop tfid.length).take 2 = pad2 n)
            (List.range' 1 99) tfid tpath target h0
            pad2_rank_pairwise
            (fun a _ => by
              show ((tfid ++ pad2 a).drop tfid.length).take 2 = pad2 a
              rw [List.drop_left]
              rfl)
            (fun a _ => by simp [pad2])
            (numbers_step tfid hd')
            sources g [] 0 out h1 h2 h3 h4 hsrc hB0 hout
        have hids : ids = toks.map (fun a => tfid ++ pad2 a) := by
          rw [← houtid, htout]
          simp
        have htnodup : toks.Nodup := by
          haveI : IsTrans Nat (fun a b => suffRank (pad2 a) < suffRank (pad2 b)) :=
            ⟨fun _ _ _ => Nat.lt_trans⟩
          have hpw := List.chain'_iff_pairwise.mp htchain
          exact hpw.imp (fun hab => by
            rintro rfl
            exact absurd hab (Nat.lt_irrefl _))
        refine ⟨?_, ?_, ?_, ?_⟩
        · rw [hids, List.length_map, htlen]
        · rw [hids]
          apply List.Nodup.map_on _ htnodup
          intro a ha b hb hab
          have hpp : pad2 a = pad2 b := List.append_cancel_left hab
          have hA := List.mem_range'_1.mp (htmem a ha)
          have hB := List.mem_range'_1.mp (htmem b hb)
          have hr := congrArg suffRank hpp
          rw [pad2_rank a (by omega), pad2_rank b (by omega)] at hr
          omega
        · rw [hids]
          unfold allocIncreasing
          rw [List.chain'_map]
          exact htchain.imp (fun a b hab => by
            rw [List.drop_left, List.drop_left]
            exact hab)
        · intro i hi
          rw [hids] at hi
          obtain ⟨a, _, rfl⟩ := List.mem_map.mp hi
          exact ⟨pad2 a, by simp [pad2], rfl⟩
  · rw [if_pos hcont] at hout
    exact absurd hout (by simp)

theorem c3_witness :
    (["01a".data, "01b".data] : List Str).length
        = (["A".data, "B".data] : List Str).length ∧
    (["01a".data, "01b".data] : List Str).Nodup ∧
    allocIncreasing "01".data ["01a".data, "01b".data] ∧
    ∀ i ∈ (["01a".data, "01b".data] : List Str), ∃ t, t ≠ [] ∧ i = "01".data ++ t :=
  c3_amended
    { all_nodes := ["T".data, "A".data, "B".data],
      folgezettel_ids :=
        [("T".data, "01".data), ("A".data, "02a".data), ("B".data, "02b".data)],
      names := [], paths := [("T".data, "p".data)], extensions := [],
      edges := [("R".data, ["A".data, "B".data])], folder_nodes := [] }
    ["A".data, "B".data] "T".data "01".data ["01a".data, "01b".data]
    (by decide) (by decide) (by decide) rfl (by decide) (by decide) rfl

/--
C1 (refuted — code bug): `update_links_in_file` does not rewrite the
ID-only form `[[old_id]]` to `[[new_id]]`.  The branch check
`pattern.endswith('\\]\\]"')` includes a stray double quote in the tested
suffix, so it never holds — every escaped pattern ends in the four
characters `\]\]` — the ID-only replacement branch is dead, and an ID-only
link is rewritten to `[[new_id new_name]]` instead.
-/
theorem c1_id_only_link_bug :
    update_links_content "01a".data "Test Note".data "01b01".data "New Name".data
        "see [[01a]] here".data
      = "see [[01b01 New Name]] here".data ∧
    update_links_content "01a".data "Test Note".data "01b01".data "New Name".data
        "see [[01a]] here".data
      ≠ "see [[01b01]] here".data ∧
    endsCheckStr.isSuffixOf (reEscape ('[' :: '[' :: "01a".data ++ [']', ']'])) = false := by
  have h : update_links_content "01a".data "Test Note".data "01b01".data "New Name".data
      "see [[01a]] here".data = "see [[01b01 New Name]] here".data := by
    simp +decide [update_links_content, replaceSub, aliasReplace]
  exact ⟨h, by rw [h]; decide, by decide⟩

/--
C6 counterexample: renaming `a.md` onto the existing path `b.md` succeeds
(returns `True`) and silently replaces `b.md`'s content — POSIX `os.rename`
raises no error for an existing destination, so no `RenameConflict`
failure can occur.
-/
theorem c6_counterexample :
    (rename_and_update_links [("a.md".data, "xx".data), ("b.md".data, "yy".data)]
        "a.md".data "b.md".data "01".data "nn".data "02".data "mm".data).1.1 = true ∧
    (rename_and_update_links [("a.md".data, "xx".data), ("b.md".data, "yy".data)]
        "a.md".data "b.md".data "01".data "nn".data "02".data "mm".data).2
      = [("b.md".data, "xx".data)] ∧
    assocFind [("a.md".data, "xx".data), ("b.md".data, "yy".data)] "b.md".data
      = some "yy".data := by
  exact ⟨by decide, by decide, by decide⟩

/--
C6 (amended): `rename_and_update_links` fails — returning `(False, [])`
with the filesystem unchanged, not a typed `NotFound` error — exactly when
the source path does not exist; when the source exists the call succeeds
even if the destination path already exists, because POSIX `os.rename`
silently replaces the destination (no `RenameConflict` failure exists in
the code).
-/
theorem c6_amended (fs : Fs) (old_path new_path oid oname nid nname : Str) :
    (assocFind fs old_path = none →
      rename_and_update_links fs old_path new_path oid oname nid nname
        = ((false, []), fs)) ∧
    (∀ c, assocFind fs old_path = some c →
      (rename_and_update_links fs old_path new_path oid oname nid nname).1.1
        = true) := by
  constructor
  · intro h
    have hr : os_rename fs old_path new_path = none := by
      unfold os_rename
      rw [h]
    unfold rename_and_update_links
    cases hs : should_update_links (splitExt old_path).2 with
    | false => simp only [hs, Bool.not_false, if_true, hr]
    | true => simp only [hs, Bool.not_true, Bool.false_eq_true, if_false, hr]
  · intro c h
    have hr : os_rename fs old_path new_path
        = some (assocSet (removePath fs old_path) new_path c) := by
      unfold os_rename
      rw [h]
    unfold rename_and_update_links
    cases hs : should_update_links (splitExt old_path).2 with
    | false => simp only [hs, Bool.not_false, if_true, hr]
    | true => simp only [hs, Bool.not_true, Bool.false_eq_true, if_false, hr]

theorem c6_witness :
    rename_and_update_links [("b.md".data, "yy".data)] "a.md".data "c.md".data
        "01".data "nn".data "02".data "mm".data
      = ((false, []), [("b.md".data, "yy".data)]) ∧
    (rename_and_update_links [("a.md".data, "xx".data), ("b.md".data, "yy".data)]
        "a.md".data "b.md".data "01".data "nn".data "02".data "mm".data).1.1
      = true :=
  ⟨(c6_amended [("b.md".data, "yy".data)] "a.md".data "c.md".data
      "01".data "nn".data "02".data "mm".data).1 rfl,
   (c6_amended [("a.md".data, "xx".data), ("b.md".data, "yy".data)] "a.md".data
      "b.md".data "01".data "nn".data "02".data "mm".data).2 "xx".data rfl⟩

theorem assocFind_removePath_self (fs : Fs) (p : Str) :
    assocFind (removePath fs p) p = none := by
  unfold removePath assocFind
  rw [Option.map_eq_none', List.find?_eq_none]
  intro kv hkv
  have := (List.mem_filter.mp hkv).2
  simpa using this

theorem removePath_assocSet_fresh (fs : Fs) (p v : Str)
    (h : assocFind fs p = none) : removePath (assocSet fs p v) p = fs := by
  have hnone : fs.find? (fun kv => kv.1 == p) = none := Option.map_eq_none'.mp h
  have hall := List.find?_eq_none.mp hnone
  have hany : (fs.any fun kv => kv.1 == p) = false :=
    List.any_eq_false.mpr (fun kv hkv => by simpa using hall kv hkv)
  unfold assocSet removePath
  simp only [hany, Bool.false_eq_true, if_false]
  rw [List.filter_append]
  have h2 : List.filter (fun kv => !(kv.1 == p)) [(p, v)] = [] := by simp
  rw [h2, List.append_nil]
  apply List.filter_eq_self.mpr
  intro kv hkv
  simpa using hall kv hkv

/--
C10: `atomic_create` opens the target with mode `w`, truncating and
overwriting an existing file; when the update callback then fails the
rollback deletes the path outright (the pre-existing content is lost,
not restored), while for a previously non-existent path the same rollback
does restore the prior filesystem; on success the callback's filesystem is
returned.
-/
theorem c10_atomic_create_rollback (fs : Fs) (path c0 content : Str)
    (update : Fs → Option Fs) :
    (assocFind fs path = some c0 → update (assocSet fs path content) = none →
      atomic_create fs path content update
          = (false, removePath (assocSet fs path content) path) ∧
        assocFind (atomic_create fs path content update).2 path = none) ∧
    (assocFind fs path = none → update (assocSet fs path content) = none →
      atomic_create fs path content update = (false, fs)) ∧
    (∀ fs2, update (assocSet fs path content) = some fs2 →
      atomic_create fs path content update = (true, fs2)) := by
  refine ⟨?_, ?_, ?_⟩
  · intro _ hu
    constructor
    · unfold atomic_create
      simp only [hu]
    · unfold atomic_create
      simp only [hu]
      exact assocFind_removePath_self _ _
  · intro h hu
    unfold atomic_create
    simp only [hu]
    rw [removePath_assocSet_fresh fs path content h]
  · intro fs2 hu
    unfold atomic_create
    simp only [hu]

theorem c10_witness :
    (atomic_create [("p".data, "old".data)] "p".data "new".data (fun _ => none)
        = (false,
            removePath (assocSet [("p".data, "old".data)] "p".data "new".data) "p".data) ∧
      assocFind (atomic_create [("p".data, "old".data)] "p".data "new".data
          (fun _ => none)).2 "p".data = none) ∧
    atomic_create [] "p".data "new".data (fun _ => none) = (false, []) ∧
    atomic_create [] "p".data "new".data (fun f => some f)
      = (true, assocSet [] "p".data "new".data) :=
  ⟨(c10_atomic_create_rollback [("p".data, "old".data)] "p".data "old".data "new".data
      (fun _ => none)).1 rfl rfl,
   (c10_atomic_create_rollback [] "p".data "old".data "new".data
      (fun _ => none)).2.1 rfl rfl,
   (c10_atomic_create_rollback [] "p".data "old".data "new".data
      (fun f => some f)).2.2 (assocSet [] "p".data "new".data) rfl⟩

theorem mem_nkSet (l : List (NodeKey × GNode)) (k : NodeKey) (v : GNode) :
    ∀ kn ∈ nkSet l k v, kn ∈ l ∨ kn = (k, v) := by
  intro kn hkn
  unfold nkSet at hkn
  by_cases hany : l.any (fun kv => kv.1 == k)
  · rw [if_pos hany] at hkn
    obtain ⟨orig, horig, heq⟩ := List.mem_map.mp hkn
    by_cases h0 : (orig.1 == k) = true
    · right
      rw [← heq]
      simp [h0]
    · left
      rw [← heq]
      simpa [h0] using horig
  · rw [if_neg hany] at hkn
    rcases List.mem_append.mp hkn with h | h
    · exact Or.inl h
    · right
      simpa using h

theorem nkSet_fresh (l : List (NodeKey × GNode)) (k : NodeKey) (v : GNode)
    (h : ∀ kv ∈ l, kv.1 ≠ k) : nkSet l k v = l ++ [(k, v)] := by
  have hany : (l.any fun kv => kv.1 == k) = false :=
    List.any_eq_false.mpr (fun kv hkv => by simpa using h kv hkv)
  unfold nkSet
  rw [hany]
  simp

theorem nkAddChild_mem_self (E : List (NodeKey × List NodeKey)) (p c : NodeKey) :
    ∃ cs, (p, cs) ∈ nkAddChild E p c ∧ c ∈ cs := by
  unfold nkAddChild
  by_cases hany : E.any (fun pc => pc.1 == p)
  · rw [if_pos hany]
    obtain ⟨kv, hkv, hk⟩ := List.any_eq_true.mp hany
    have hk1 : kv.1 = p := by simpa using hk
    refine ⟨if kv.2.contains c then kv.2 else kv.2 ++ [c], ?_, ?_⟩
    · have := List.mem_map_of_mem
        (fun pc => if pc.1 == p then
            (pc.1, if pc.2.contains c then pc.2 else pc.2 ++ [c]) else pc) hkv
      simpa [hk, hk1] using this
    · by_cases hc : kv.2.contains c = true
      · rw [if_pos hc]
        simpa using hc
      · rw [bool_not_true hc]
        simp
  · rw [if_neg hany]
    exact ⟨[c], List.mem_append_right _ (by simp), by simp⟩

theorem nkAddChild_mem_mono (E : List (NodeKey × List NodeKey)) (p c : NodeKey)
    (q : NodeKey) (cs : List NodeKey) (x : NodeKey)
    (h : (q, cs) ∈ E) (hx : x ∈ cs) :
    ∃ cs2, (q, cs2) ∈ nkAddChild E p c ∧ x ∈ cs2 := by
  unfold nkAddChild
  by_cases hany : E.any (fun pc => pc.1 == p)
  · rw [if_pos hany]
    by_cases hqp : ((q, cs).1 == p) = true
    · refine ⟨if cs.contains c then cs else cs ++ [c], ?_, ?_⟩
      · have := List.mem_map_of_mem
          (fun pc => if pc.1 == p then
              (pc.1, if pc.2.contains c then pc.2 else pc.2 ++ [c]) else pc) h
        have hq : q = p := by simpa using hqp
        simpa [hqp, hq] using this
      · by_cases hc : cs.contains c = true
        · rw [if_pos hc]
          exact hx
        · rw [bool_not_true hc]
          simp only [Bool.false_eq_true, if_false]
          exact List.mem_append_left _ hx
    · refine ⟨cs, ?_, hx⟩
      have := List.mem_map_of_mem
        (fun pc => if pc.1 == p then
            (pc.1, if pc.2.contains c then pc.2 else pc.2 ++ [c]) else pc) h
      simpa [hqp] using this
  · rw [if_neg hany]
    exact ⟨cs, List.mem_append_left _ h, hx⟩

theorem get_parent_id_ne_nil_of_long (l : Str) (h : 2 < l.length) :
    get_parent_id l ≠ [] := by
  unfold get_parent_id
  rw [if_neg (by omega)]
  intro hx
  by_cases h3 : (l.length == 3) = true
  · rw [if_pos h3] at hx
    have := congrArg List.length hx
    simp only [List.length_take, List.length_nil] at this
    omega
  · rw [bool_not_true h3] at hx
    simp only [Bool.false_eq_true, if_false] at hx
    by_cases hd : (!(l.getLast?.getD '0').isDigit) = true
    · rw [if_pos hd] at hx
      have := congrArg List.length hx
      simp only [List.length_dropLast, List.length_nil] at this
      omega
    · rw [bool_not_true hd] at hx
      simp only [Bool.false_eq_true, if_false] at hx
      have := congrArg List.length hx
      simp only [List.length_take, List.length_nil] at this
      have h3' : l.length ≠ 3 := by simpa using h3
      omega

/--
Invariant induction for phase 2: if every surrogate-keyed entry of the node
dict carries the fid of its key, and every ID-bearing entry with an id
longer than two characters either already has its parent edge (from a node
whose id is its derived parent) or is still pending in the worklist, then
in the final graph every such entry has its parent edge.
-/
theorem phase2_spec (work nodes : List (NodeKey × GNode))
    (edges : List (NodeKey × List NodeKey)) (idn fol : List NodeKey)
    (Hsur : ∀ kn ∈ nodes, ∀ fid, kn.1 = NodeKey.surr fid → kn.2.id = fid)
    (Hpend : ∀ kn ∈ nodes, kn.2.id ≠ [] → 2 < kn.2.id.length →
      (∃ pk cs pn, (pk, cs) ∈ edges ∧ kn.1 ∈ cs ∧ (pk, pn) ∈ nodes ∧
        pn.id = get_parent_id kn.2.id) ∨ kn ∈ work) :
    ∀ kn ∈ (phase2 work nodes edges idn fol).nodes,
      kn.2.id ≠ [] → 2 < kn.2.id.length →
      ∃ pk cs pn, (pk, cs) ∈ (phase2 work nodes edges idn fol).edges ∧ kn.1 ∈ cs ∧
        (pk, pn) ∈ (phase2 work nodes edges idn fol).nodes ∧
        pn.id = get_parent_id kn.2.id :=
  match work with
  | [] => by
    intro kn hkn hne hlong
    simp only [phase2] at hkn ⊢
    rcases Hpend kn hkn hne hlong with hd | hin
    · exact hd
    · simp at hin
  | (k, node) :: rest => by
    by_cases hid : node.id ≠ [] ∧ get_parent_id node.id ≠ []
    · cases hfind : nodes.find? (fun kn => kn.2.id == get_parent_id node.id) with
      | some pkn =>
        have hpknmem : pkn ∈ nodes := List.mem_of_find?_eq_some hfind
        have hpknid : pkn.2.id = get_parent_id node.id := by
          simpa using List.find?_some hfind
        have heq : phase2 ((k, node) :: rest) nodes edges idn fol
            = phase2 rest nodes (nkAddChild edges pkn.1 k)
                (if node.id ≠ [] then nkSetAdd idn k else idn)
                (if node.is_directory then nkSetAdd fol k else fol) := by
          simp only [phase2]
          rw [dif_pos hid]
          simp only [hfind]
        have Hpend2 : ∀ kn ∈ nodes, kn.2.id ≠ [] → 2 < kn.2.id.length →
            (∃ pk cs pn, (pk, cs) ∈ nkAddChild edges pkn.1 k ∧ kn.1 ∈ cs ∧
              (pk, pn) ∈ nodes ∧ pn.id = get_parent_id kn.2.id) ∨ kn ∈ rest := by
          intro kn hkn hne hlong
          rcases Hpend kn hkn hne hlong with ⟨pk, cs, pn, hpc, hkc, hpn, hpid⟩ | hin
          · obtain ⟨cs2, h1, h2⟩ := nkAddChild_mem_mono edges pkn.1 k pk cs kn.1 hpc hkc
            exact Or.inl ⟨pk, cs2, pn, h1, h2, hpn, hpid⟩
          · rcases List.mem_cons.mp hin with hkeq | hin'
            · left
              subst hkeq
              obtain ⟨cs, hcs, hkcs⟩ := nkAddChild_mem_self edges pkn.1 k
              refine ⟨pkn.1, cs, pkn.2, hcs, hkcs, ?_, hpknid⟩
              simpa using hpknmem
            · exact Or.inr hin'
        rw [heq]
        exact phase2_spec rest nodes (nkAddChild edges pkn.1 k) _ _ Hsur Hpend2
      | none =>
        have hfresh : ∀ kv ∈ nodes, kv.1 ≠ NodeKey.surr (get_parent_id node.id) := by
          intro kv hkv hx
          have hid2 := Hsur kv hkv (get_parent_id node.id) hx
          have := List.find?_eq_none.mp hfind kv hkv
          simp [hid2] at this
        have hset : nkSet nodes (.surr (get_parent_id node.id))
              (surrogateNode (get_parent_id node.id))
            = nodes ++ [(.surr (get_parent_id node.id),
                surrogateNode (get_parent_id node.id))] :=
          nkSet_fresh _ _ _ hfresh
        have heq : phase2 ((k, node) :: rest) nodes edges idn fol
            = phase2
                (rest ++ [(.surr (get_parent_id node.id),
                  surrogateNode (get_parent_id node.id))])
                (nodes ++ [(.surr (get_parent_id node.id),
                  surrogateNode (get_parent_id node.id))])
                (nkAddChild edges (.surr (get_parent_id node.id)) k)
                (nkSetAdd (if node.id ≠ [] then nkSetAdd idn k else idn)
                  (.surr (get_parent_id node.id)))
                (if node.is_directory then nkSetAdd fol k else fol) := by
          simp only [phase2]
          rw [dif_pos hid]
          simp only [hfind, hset]
        have Hsur2 : ∀ kn ∈ nodes ++ [(.surr (get_parent_id node.id),
              surrogateNode (get_parent_id node.id))],
            ∀ fid, kn.1 = NodeKey.surr fid → kn.2.id = fid := by
          intro kn hkn fid hx
          rcases List.mem_append.mp hkn with hold | hnew
          · exact Hsur kn hold fid hx
          · have hkn2 : kn = (.surr (get_parent_id node.id),
                surrogateNode (get_parent_id node.id)) := by simpa using hnew
            subst hkn2
            simp only at hx
            have : get_parent_id node.id = fid := by
              exact NodeKey.surr.inj hx
            simp [surrogateNode, this]
        have Hpend2 : ∀ kn ∈ nodes ++ [(.surr (get_parent_id node.id),
              surrogateNode (get_parent_id node.id))],
            kn.2.id ≠ [] → 2 < kn.2.id.length →
            (∃ pk cs pn, (pk, cs) ∈ nkAddChild edges (.surr (get_parent_id node.id)) k ∧
              kn.1 ∈ cs ∧
              (pk, pn) ∈ nodes ++ [(.surr (get_parent_id node.id),
                surrogateNode (get_parent_id node.id))] ∧
              pn.id = get_parent_id kn.2.id) ∨
            kn ∈ rest ++ [(.surr (get_parent_id node.id),
              surrogateNode (get_parent_id node.id))] := by
          intro kn hkn hne hlong
          rcases List.mem_append.mp hkn with hold | hnew
          · rcases Hpend kn hold hne hlong with ⟨pk, cs, pn, hpc, hkc, hpn, hpid⟩ | hin
            · obtain ⟨cs2, h1, h2⟩ :=
                nkAddChild_mem_mono edges (.surr (get_parent_id node.id)) k pk cs kn.1 hpc hkc
              exact Or.inl ⟨pk, cs2, pn, h1, h2, List.mem_append_left _ hpn, hpid⟩
            · rcases List.mem_cons.mp hin with hkeq | hin'
              · left
                subst hkeq
                obtain ⟨cs, hcs, hkcs⟩ :=
                  nkAddChild_mem_self edges (.surr (get_parent_id node.id)) k
                refine ⟨.surr (get_parent_id node.id), cs,
                  surrogateNode (get_parent_id node.id), hcs, hkcs, ?_, ?_⟩
                · exact List.mem_append_right _ (by simp)
                · simp [surrogateNode]
              · exact Or.inr (List.mem_append_left _ hin')
          · exact Or.inr (List.mem_append_right _ hnew)
        rw [heq]
        exact phase2_spec
          (rest ++ [(.surr (get_parent_id node.id),
            surrogateNode (get_parent_id node.id))])
          (nodes ++ [(.surr (get_parent_id node.id),
            surrogateNode (get_parent_id node.id))])
          (nkAddChild edges (.surr (get_parent_id node.id)) k) _ _ Hsur2 Hpend2
    · have htrans : ∀ (E2 : List (NodeKey × List NodeKey)),
          (∀ pk cs x, (pk, cs) ∈ edges → x ∈ cs → ∃ cs2, (pk, cs2) ∈ E2 ∧ x ∈ cs2) →
          ∀ kn ∈ nodes, kn.2.id ≠ [] → 2 < kn.2.id.length →
            (∃ pk cs pn, (pk, cs) ∈ E2 ∧ kn.1 ∈ cs ∧ (pk, pn) ∈ nodes ∧
              pn.id = get_parent_id kn.2.id) ∨ kn ∈ rest := by
        intro E2 hmono kn hkn hne hlong
        rcases Hpend kn hkn hne hlong with ⟨pk, cs, pn, hpc, hkc, hpn, hpid⟩ | hin
        · obtain ⟨cs2, h1, h2⟩ := hmono pk cs kn.1 hpc hkc
          exact Or.inl ⟨pk, cs2, pn, h1, h2, hpn, hpid⟩
        · rcases List.mem_cons.mp hin with hkeq | hin'
          · exfalso
            apply hid
            subst hkeq
            refine ⟨?_, get_parent_id_ne_nil_of_long _ hlong⟩
            exact hne
          · exact Or.inr hin'
      by_cases hpp : (if node.is_directory then dirnameStr node.path else node.path) ≠ [] ∧
          (if node.is_directory then dirnameStr node.path else node.path) ≠ ['.']
      · cases hfind2 : nodes.find? (fun kn => kn.2.is_directory &&
            kn.2.path == (if node.is_directory then dirnameStr node.path else node.path)) with
        | some pkn =>
          by_cases hne2 : pkn.1 ≠ k
          · have heq : phase2 ((k, node) :: rest) nodes edges idn fol
                = phase2 rest nodes (nkAddChild edges pkn.1 k)
                    (if node.id ≠ [] then nkSetAdd idn k else idn)
                    (if node.is_directory then nkSetAdd fol k else fol) := by
              simp only [phase2]
              rw [dif_neg hid, if_pos hpp]
              simp only [hfind2]
              rw [if_pos hne2]
            rw [heq]
            exact phase2_spec rest nodes (nkAddChild edges pkn.1 k) _ _ Hsur
              (htrans _ (fun pk cs x h hx => nkAddChild_mem_mono edges pkn.1 k pk cs x h hx))
          · have heq : phase2 ((k, node) :: rest) nodes edges idn fol
                = phase2 rest nodes edges
                    (if node.id ≠ [] then nkSetAdd idn k else idn)
                    (if node.is_directory then nkSetAdd fol k else fol) := by
              simp only [phase2]
              rw [dif_neg hid, if_pos hpp]
              simp only [hfind2]
              rw [if_neg hne2]
            rw [heq]
            exact phase2_spec rest nodes edges _ _ Hsur
              (htrans _ (fun pk cs x h hx => ⟨cs, h, hx⟩))
        | none =>
          have heq : phase2 ((k, node) :: rest) nodes edges idn fol
              = phase2 rest nodes edges
                  (if node.id ≠ [] then nkSetAdd idn k else idn)
                  (if node.is_directory then nkSetAdd fol k else fol) := by
            simp only [phase2]
            rw [dif_neg hid, if_pos hpp]
            simp only [hfind2]
          rw [heq]
          exact phase2_spec rest nodes edges _ _ Hsur
            (htrans _ (fun pk cs x h hx => ⟨cs, h, hx⟩))
      · have heq : phase2 ((k, node) :: rest) nodes edges idn fol
            = phase2 rest nodes edges
                (if node.id ≠ [] then nkSetAdd idn k else idn)
                (if node.is_directory then nkSetAdd fol k else fol) := by
          simp only [phase2]
          rw [dif_neg hid, if_neg hpp]
        rw [heq]
        exact phase2_spec rest nodes edges _ _ Hsur
          (htrans _ (fun pk cs x h hx => ⟨cs, h, hx⟩))
termination_by (work.map (fun kn => 4 ^ kn.2.id.length)).sum
decreasing_by
  all_goals simp only [List.map_cons, List.sum_cons, List.map_append, List.sum_append,
    List.map_nil, List.sum_nil, Nat.add_zero, surrogateNode]
  all_goals try
    (have hp : 0 < 4 ^ node.id.length := pow_pos (by omega) _
     omega)
  · have hlt : (get_parent_id node.id).length < node.id.length := by
      have h1 : ¬ node.id.length ≤ 2 := by
        intro hle
        apply hid.2
        show get_parent_id node.id = []
        simp [get_parent_id, hle]
      show (get_parent_id node.id).length < node.id.length
      unfold get_parent_id
      rw [if_neg h1]
      split
      · simp only [List.length_take]
        omega
      · split
        · simp only [List.length_dropLast]
          omega
        · simp only [List.length_take]
          omega
    have hpow : (4 : Nat) ^ (get_parent_id node.id).length < 4 ^ node.id.length :=
      Nat.pow_lt_pow_right (by omega) hlt
    rw [Nat.add_comm]
    exact Nat.add_lt_add_right hpow _

theorem walk_no_surr (jobs : List Job) (st : List Str × List (NodeKey × GNode))
    (h : ∀ kn ∈ st.2, ∀ fid, kn.1 ≠ NodeKey.surr fid) :
    ∀ kn ∈ (walk jobs st).2, ∀ fid, kn.1 ≠ NodeKey.surr fid :=
  match jobs with
  | [] => by simpa [walk] using h
  | .ent cur rp (.file n t) :: rest => by
    simp only [walk]
    by_cases hsup : supportedExts.contains (((splitExt n).2).map Char.toLower) = true
    · rw [if_pos hsup]
      refine walk_no_surr rest _ ?_
      intro kn hkn fid
      rcases mem_nkSet _ _ _ kn hkn with hold | hnew
      · exact h kn hold fid
      · rw [hnew]
        simp
    · rw [if_neg hsup]
      exact walk_no_surr rest st h
  | .ent cur rp (.dir n subs) :: rest => by
    simp only [walk]
    by_cases hseen : st.1.contains (normpathStr (joinPath rp n)) = true
    · rw [if_pos hseen]
      exact walk_no_surr rest st h
    · rw [if_neg hseen]
      refine walk_no_surr _ _ ?_
      intro kn hkn fid
      rcases mem_nkSet _ _ _ kn hkn with hold | hnew
      · exact h kn hold fid
      · rw [hnew]
        simp
  | .dirbody cur rel entries :: rest => by
    simp only [walk]
    by_cases hseen : st.1.contains (normpathStr rel) = true
    · rw [if_pos hseen]
      exact walk_no_surr rest st h
    · rw [if_neg hseen]
      refine walk_no_surr _ _ ?_
      intro kn hkn fid
      rcases mem_nkSet _ _ _ kn hkn with hold | hnew
      · exact h kn hold fid
      · rw [hnew]
        simp
termination_by (jobs.map jobSize).sum
decreasing_by
  all_goals simp only [List.map_cons, List.sum_cons, List.map_append, List.sum_append,
    List.map_map, jobSize, entSize]
  all_goals try omega
  all_goals
    (have hins : ∀ (e : FSEntry) (l : List FSEntry),
        listSize (insertSorted e l) = entSize e + listSize l := by
      intro e l
      induction l with
      | nil => simp [insertSorted, listSize]
      | cons f fs ih =>
        simp only [insertSorted]
        by_cases hc : lexLe (entryName e) (entryName f) = true
        · simp [hc, listSize]
        · simp only [hc, Bool.false_eq_true, if_false, listSize, ih]
          omega
     have hsort : ∀ l : List FSEntry, listSize (sortEntries l) = listSize l := by
      intro l
      induction l with
      | nil => rfl
      | cons e es ih =>
        show listSize (insertSorted e (sortEntries es)) = _
        rw [hins, ih, listSize]
     have hmapsum : ∀ (a b : Str) (l : List FSEntry),
        ((l.map (jobSize ∘ fun e => Job.ent a b e)).sum) = listSize l := by
      intro a b l
      induction l with
      | nil => rfl
      | cons e es ih =>
        show entSize e + (es.map _).sum = listSize (e :: es)
        rw [ih]
        rfl
     rw [hmapsum, hsort]
     omega)

/--
C8: in every graph returned by `build_combined_graph`, every node whose
folgezettel id is nonempty and longer than two characters — including the
surrogate nodes created during edge construction, which re-enter the
worklist — has an incoming edge from a node whose id equals its derived
parent id (an existing node when one carries that id, else a freshly
created surrogate, which by construction carries it).
-/
theorem c8_parent_edges (dirPath : Str) (entries : List FSEntry) :
    ∀ kn ∈ (build_combined_graph dirPath entries).nodes,
      kn.2.id ≠ [] → 2 < kn.2.id.length →
      ∃ pk cs pn, (pk, cs) ∈ (build_combined_graph dirPath entries).edges ∧
        kn.1 ∈ cs ∧ (pk, pn) ∈ (build_combined_graph dirPath entries).nodes ∧
        pn.id = get_parent_id kn.2.id := by
  have hns := walk_no_surr [.dirbody dirPath [] entries] ([], []) (by simp)
  unfold build_combined_graph
  apply phase2_spec
  · intro kn hkn fid hx
    exact absurd hx (hns kn hkn fid)
  · intro kn hkn _ _
    exact Or.inr hkn

theorem c8_witness :
    ∃ pk cs pn,
      (pk, cs) ∈ (build_combined_graph "root".data
        [.file "01a01 Note.md".data 7]).edges ∧
      NodeKey.fileK 7 ∈ cs ∧
      (pk, pn) ∈ (build_combined_graph "root".data
        [.file "01a01 Note.md".data 7]).nodes ∧
      pn.id = get_parent_id "01a01".data := by
  have hmem : (NodeKey.fileK 7,
      ({ name := "Note".data, path := [], is_directory := false,
         id := "01a01".data, extension := ".md".data, is_surrogate := false } : GNode))
      ∈ (build_combined_graph "root".data [.file "01a01 Note.md".data 7]).nodes := by
    simp +decide [build_combined_graph, process_directory_nodes, walk, phase2,
      sortEntries, insertSorted, normpathStr, joinPath, basenameStr, dirnameStr,
      mkNamedNode, splitMax1, splitExt, nkSet, nkAddChild, nkSetAdd, surrogateNode,
      supportedExts, get_parent_id]
  exact c8_parent_edges "root".data [.file "01a01 Note.md".data 7]
    (NodeKey.fileK 7,
      { name := "Note".data, path := [], is_directory := false,
        id := "01a01".data, extension := ".md".data, is_surrogate := false })
    hmem (by decide) (by decide)

theorem insertSorted_perm (e : FSEntry) (l : List FSEntry) :
    (insertSorted e l).Perm (e :: l) := by
  induction l with
  | nil => exact List.Perm.refl _
  | cons f fs ih =>
    simp only [insertSorted]
    by_cases hc : lexLe (entryName e) (entryName f) = true
    · rw [if_pos hc]
    · rw [if_neg hc]
      exact (ih.cons f).trans (List.Perm.swap e f fs)

theorem sortEntries_perm (l : List FSEntry) : (sortEntries l).Perm l := by
  induction l with
  | nil => exact List.Perm.refl _
  | cons e es ih =>
    show (insertSorted e (sortEntries es)).Perm (e :: es)
    exact (insertSorted_perm e _).trans (ih.cons e)

theorem keysOfList_flatMap (a : Str) (l : List FSEntry) :
    keysOfList a l = l.flatMap (keysOfEntry a) := by
  induction l with
  | nil => rfl
  | cons e es ih => simp [keysOfList, ih]

theorem relsOfList_flatMap (a : Str) (l : List FSEntry) :
    relsOfList a l = l.flatMap (relsOfEntry a) := by
  induction l with
  | nil => rfl
  | cons e es ih => simp [relsOfList, ih]

theorem jobKeys_map_ent (a b : Str) (l : List FSEntry) :
    (l.map (fun e => Job.ent a b e)).flatMap jobKeys = keysOfList a l := by
  induction l with
  | nil => rfl
  | cons e es ih => simp [jobKeys, keysOfList, ih]

theorem jobRels_map_ent (a b : Str) (l : List FSEntry) :
    (l.map (fun e => Job.ent a b e)).flatMap jobRels = relsOfList b l := by
  induction l with
  | nil => rfl
  | cons e es ih => simp [jobRels, relsOfList, ih]

theorem keysOfList_perm (a : Str) {l1 l2 : List FSEntry} (p : l1.Perm l2) :
    (keysOfList a l1).Perm (keysOfList a l2) := by
  rw [keysOfList_flatMap, keysOfList_flatMap]
  exact p.flatMap_right _

theorem relsOfList_perm (a : Str) {l1 l2 : List FSEntry} (p : l1.Perm l2) :
    (relsOfList a l1).Perm (relsOfList a l2) := by
  rw [relsOfList_flatMap, relsOfList_flatMap]
  exact p.flatMap_right _

theorem perm_shift {α : Type} (A : List α) (K : α) (X Y R : List α) (p : X.Perm Y) :
    ((A ++ [K]) ++ (X ++ R)).Perm (A ++ K :: (Y ++ R)) := by
  have e1 : (A ++ [K]) ++ (X ++ R) = A ++ K :: (X ++ R) := by simp
  rw [e1]
  exact List.Perm.append_left A (List.Perm.cons K (List.Perm.append_right R p))

/--
Phase-1 key accounting: when the prospective stable keys of the pending
jobs (together with the keys already in the dict) are pairwise distinct, and
likewise the prospective `seen_paths` entries, no directory is skipped and
no dict entry is overwritten, so the final key list is a permutation of the
input keys followed by every job's prospective keys.
-/
theorem walk_perm (jobs : List Job) (st : List Str × List (NodeKey × GNode))
    (hK : ((st.2.map Prod.fst) ++ jobs.flatMap jobKeys).Nodup)
    (hR : (st.1 ++ jobs.flatMap jobRels).Nodup) :
    ((walk jobs st).2.map Prod.fst).Perm (st.2.map Prod.fst ++ jobs.flatMap jobKeys) :=
  match jobs with
  | [] => by
    simp only [walk, List.flatMap_nil, List.append_nil]
    exact List.Perm.refl _
  | .ent cur rp (.file n t) :: rest => by
    simp only [walk]
    simp only [List.flatMap_cons, jobKeys, jobRels, keysOfEntry, relsOfEntry] at hK ⊢
    by_cases hsup : supportedExts.contains (((splitExt n).2).map Char.toLower) = true
    · rw [if_pos hsup]
      rw [if_pos hsup] at hK ⊢
      have hfresh : ∀ kv ∈ st.2, kv.1 ≠ NodeKey.fileK t := by
        have hdis := (List.nodup_append.mp hK).2.2
        intro kv hkv hx
        have h1 : kv.1 ∈ st.2.map Prod.fst := List.mem_map_of_mem _ hkv
        rw [hx] at h1
        exact hdis h1 (by simp)
      rw [nkSet_fresh _ _ _ hfresh]
      refine List.Perm.trans (walk_perm rest _ ?_ ?_) ?_
      · simpa using hK
      · simpa [List.flatMap_cons, jobRels, relsOfEntry] using hR
      · simp only [List.map_append, List.map_cons, List.map_nil, List.append_assoc]
        exact List.Perm.refl _
    · rw [if_neg hsup]
      rw [if_neg hsup] at hK ⊢
      simp only [List.nil_append] at hK ⊢
      exact walk_perm rest st hK
        (by simpa [List.flatMap_cons, jobRels, relsOfEntry] using hR)
  | .ent cur rp (.dir n subs) :: rest => by
    simp only [walk]
    simp only [List.flatMap_cons, jobKeys, jobRels, keysOfEntry, relsOfEntry] at hK hR ⊢
    have hdisR := (List.nodup_append.mp hR).2.2
    have hseen : st.1.contains (normpathStr (joinPath rp n)) = false := by
      cases hc : st.1.contains (normpathStr (joinPath rp n)) with
      | false => rfl
      | true =>
        exfalso
        have hmem : normpathStr (joinPath rp n) ∈ st.1 := by simpa using hc
        exact hdisR hmem (by simp)
    rw [if_neg (by rw [hseen]; simp)]
    have hdisK := (List.nodup_append.mp hK).2.2
    have hfresh : ∀ kv ∈ st.2, kv.1 ≠ NodeKey.dirK (joinPath cur n) := by
      intro kv hkv hx
      have h1 : kv.1 ∈ st.2.map Prod.fst := List.mem_map_of_mem _ hkv
      rw [hx] at h1
      exact hdisK h1 (by simp)
    rw [nkSet_fresh _ _ _ hfresh]
    have hpk : (keysOfList (joinPath cur n) (sortEntries subs)).Perm
        (keysOfList (joinPath cur n) subs) :=
      keysOfList_perm _ (sortEntries_perm subs)
    have hpr : (relsOfList (normpathStr (joinPath rp n)) (sortEntries subs)).Perm
        (relsOfList (normpathStr (joinPath rp n)) subs) :=
      relsOfList_perm _ (sortEntries_perm subs)
    refine List.Perm.trans (walk_perm _ _ ?_ ?_) ?_
    · simp only [List.flatMap_append, jobKeys_map_ent, List.map_append, List.map_cons,
        List.map_nil]
      exact List.Perm.nodup (perm_shift _ _ _ _ _ hpk).symm hK
    · simp only [List.flatMap_append, jobRels_map_ent]
      exact List.Perm.nodup (perm_shift _ _ _ _ _ hpr).symm hR
    · simp only [List.flatMap_append, jobKeys_map_ent, List.map_append, List.map_cons,
        List.map_nil]
      exact perm_shift _ _ _ _ _ hpk
  | .dirbody cur rel entries :: rest => by
    simp only [walk]
    simp only [List.flatMap_cons, jobKeys, jobRels] at hK hR ⊢
    have hdisR := (List.nodup_append.mp hR).2.2
    have hseen : st.1.contains (normpathStr rel) = false := by
      cases hc : st.1.contains (normpathStr rel) with
      | false => rfl
      | true =>
        exfalso
        have hmem : normpathStr rel ∈ st.1 := by simpa using hc
        exact hdisR hmem (by simp)
    rw [if_neg (by rw [hseen]; simp)]
    have hdisK := (List.nodup_append.mp hK).2.2
    have hfresh : ∀ kv ∈ st.2, kv.1 ≠ NodeKey.dirK cur := by
      intro kv hkv hx
      have h1 : kv.1 ∈ st.2.map Prod.fst := List.mem_map_of_mem _ hkv
      rw [hx] at h1
      exact hdisK h1 (by simp)
    rw [nkSet_fresh _ _ _ hfresh]
    have hpk : (keysOfList cur (sortEntries entries)).Perm (keysOfList cur entries) :=
      keysOfList_perm _ (sortEntries_perm entries)
    have hpr : (relsOfList (normpathStr rel) (sortEntries entries)).Perm
        (relsOfList (normpathStr rel) entries) :=
      relsOfList_perm _ (sortEntries_perm entries)
    refine List.Perm.trans (walk_perm _ _ ?_ ?_) ?_
    · simp only [List.flatMap_append, jobKeys_map_ent, List.map_append, List.map_cons,
        List.map_nil]
      exact List.Perm.nodup (perm_shift _ _ _ _ _ hpk).symm hK
    · simp only [List.flatMap_append, jobRels_map_ent]
      exact List.Perm.nodup (perm_shift _ _ _ _ _ hpr).symm hR
    · simp only [List.flatMap_append, jobKeys_map_ent, List.map_append, List.map_cons,
        List.map_nil]
      exact perm_shift _ _ _ _ _ hpk
termination_by (jobs.map jobSize).sum
decreasing_by
  all_goals simp only [List.map_cons, List.sum_cons, List.map_append, List.sum_append,
    List.map_map, jobSize, entSize]
  all_goals try omega
  all_goals
    (have hins : ∀ (e : FSEntry) (l : List FSEntry),
        listSize (insertSorted e l) = entSize e + listSize l := by
      intro e l
      induction l with
      | nil => simp [insertSorted, listSize]
      | cons f fs ih =>
        simp only [insertSorted]
        by_cases hc : lexLe (entryName e) (entryName f) = true
        · simp [hc, listSize]
        · simp only [hc, Bool.false_eq_true, if_false, listSize, ih]
          omega
     have hsort : ∀ l : List FSEntry, listSize (sortEntries l) = listSize l := by
      intro l
      induction l with
      | nil => rfl
      | cons e es ih =>
        show listSize (insertSorted e (sortEntries es)) = _
        rw [hins, ih, listSize]
     have hmapsum : ∀ (a b : Str) (l : List FSEntry),
        ((l.map (jobSize ∘ fun e => Job.ent a b e)).sum) = listSize l := by
      intro a b l
      induction l with
      | nil => rfl
      | cons e es ih =>
        show entSize e + (es.map _).sum = listSize (e :: es)
        rw [ih]
        rfl
     rw [hmapsum, hsort]
     omega)

/--
C7 counterexample: a directory with two supported files whose creation
timestamps coincide (`min(st_ctime_ns, st_mtime_ns) = 5` for both) produces
only two nodes — the root directory node and a single file node — instead
of three: both files get the stable key `str(5)`, and the second
(`b.md`, processed later in sorted order) silently overwrites the first in
the node dict.
-/
theorem c7_counterexample :
    (process_directory_nodes "root".data
        [.file "a.md".data 5, .file "b.md".data 5]).length = 2 ∧
    (NodeKey.dirK "root".data ::
        keysOfList "root".data [.file "a.md".data 5, .file "b.md".data 5]).length = 3 ∧
    nkFind (process_directory_nodes "root".data
        [.file "a.md".data 5, .file "b.md".data 5]) (NodeKey.fileK 5)
      = some { name := "b".data, path := [], is_directory := false, id := [],
               extension := ".md".data, is_surrogate := false } := by
  refine ⟨?_, by decide, ?_⟩
  · simp +decide [process_directory_nodes, walk, sortEntries, insertSorted, lexLe,
      entryName, normpathStr, joinPath, basenameStr, dirnameStr, mkNamedNode, splitMax1,
      splitExt, nkSet, supportedExts]
  · simp +decide [process_directory_nodes, walk, sortEntries, insertSorted, lexLe,
      entryName, normpathStr, joinPath, basenameStr, dirnameStr, mkNamedNode, splitMax1,
      splitExt, nkSet, nkFind, supportedExts]

/--
C7 (amended): stable keys are unique per node only when the prospective
keys are pairwise distinct — in particular, when all supported files in the
tree have pairwise-distinct creation timestamps, and the directories have
pairwise-distinct paths (a real-filesystem invariant; the md5 of the
absolute path is modelled as the path itself).  Under those hypotheses no
entry merges with or overwrites another: the key list of the produced node
map is exactly (a permutation of) one key per directory and per supported
file.  Without the distinct-timestamp hypothesis the claim fails
(`c7_counterexample`): files are keyed by creation time alone.
-/
theorem c7_amended (dirPath : Str) (entries : List FSEntry)
    (hK : (NodeKey.dirK dirPath :: keysOfList dirPath entries).Nodup)
    (hR : ((['.'] : Str) :: relsOfList (['.'] : Str) entries).Nodup) :
    ((process_directory_nodes dirPath entries).map Prod.fst).Perm
      (NodeKey.dirK dirPath :: keysOfList dirPath entries) := by
  have h1 : (([] : List (NodeKey × GNode)).map Prod.fst ++
      ([Job.dirbody dirPath [] entries].flatMap jobKeys)).Nodup := by
    simpa [jobKeys] using hK
  have h2 : (([] : List Str) ++ [Job.dirbody dirPath [] entries].flatMap jobRels).Nodup := by
    simpa [jobRels, normpathStr] using hR
  have h := walk_perm [.dirbody dirPath [] entries] ([], []) h1 h2
  simpa [jobKeys, process_directory_nodes] using h

theorem c7_witness :
    ((process_directory_nodes "root".data
        [.file "a.md".data 5, .file "b.md".data 6]).map Prod.fst).Perm
      (NodeKey.dirK "root".data ::
        keysOfList "root".data [.file "a.md".data 5, .file "b.md".data 6]) :=
  c7_amended "root".data [.file "a.md".data 5, .file "b.md".data 6]
    (by decide) (by decide)
